import Mathlib

/-!
Verification development for the multi-source ingestion pipeline and the
interval-merge aggregation of the digital-self extraction repository.

The Python source is shallowly embedded: pure helpers become Lean
functions, the sqlite tables become lists of records, the per-row loops of
the collectors become folds, and the run bookkeeping becomes explicit
state passing.  SQLite REAL values are modelled as rationals, INTEGER
values as Int, and the Python `int()` cast as truncation toward zero.
-/

/-! ## Python values (arguments of make_hash, src/collectors/base.py) -/

/-- Value as passed to `make_hash(*args)`: the collectors pass strings,
integers and None. -/
inductive PyVal where
  | none
  | str (s : String)
  | int (n : Int)
deriving DecidableEq, Repr

/-- Rendering of one argument inside make_hash:
`str(arg) if arg is not None else ''` (line 23 of src/collectors/base.py). -/
def renderField : PyVal → String
  | PyVal.none => ""
  | PyVal.str s => s
  | PyVal.int n => toString n

/-! ## SHA-256 (model of hashlib.sha256, as called by make_hash)

Words are Nat reduced mod 2 ^ 32. -/

/-- Reduce to a 32-bit word. -/
def w32 (x : Nat) : Nat := x % 4294967296

/-- Right rotation of a 32-bit word. -/
def rotr (x n : Nat) : Nat := w32 ((x >>> n) ||| (x <<< (32 - n)))

/-- Round constants of SHA-256. -/
def sha256K : List Nat :=
  [1116352408, 1899447441, 3049323471, 3921009573, 961987163,
   1508970993, 2453635748, 2870763221, 3624381080, 310598401,
   607225278, 1426881987, 1925078388, 2162078206, 2614888103,
   3248222580, 3835390401, 4022224774, 264347078, 604807628,
   770255983, 1249150122, 1555081692, 1996064986, 2554220882,
   2821834349, 2952996808, 3210313671, 3336571891, 3584528711,
   113926993, 338241895, 666307205, 773529912, 1294757372,
   1396182291, 1695183700, 1986661051, 2177026350, 2456956037,
   2730485921, 2820302411, 3259730800, 3345764771, 3516065817,
   3600352804, 4094571909, 275423344, 430227734, 506948616,
   659060556, 883997877, 958139571, 1322822218, 1537002063,
   1747873779, 1955562222, 2024104815, 2227730452, 2361852424,
   2428436474, 2756734187, 3204031479, 3329325298]

/-- Initial hash state of SHA-256. -/
def sha256H0 : List Nat :=
  [1779033703, 3144134277, 1013904242, 2773480762,
   1359893119, 2600822924, 528734635, 1541459225]

/-- Big-endian byte rendering of a Nat on a fixed number of bytes. -/
def toBytesBE (n : Nat) : Nat → List Nat
  | 0 => []
  | len + 1 => toBytesBE (n >>> 8) len ++ [n % 256]

/-- Group a byte list into big-endian 32-bit words. -/
def bytesToWordsBE : List Nat → List Nat
  | b0 :: b1 :: b2 :: b3 :: rest =>
      (((b0 * 256 + b1) * 256 + b2) * 256 + b3) :: bytesToWordsBE rest
  | _ => []

/-- SHA-256 padding: append 0x80, zeros to 56 mod 64, then the bit length
on 8 bytes. -/
def sha256pad (msg : List Nat) : List Nat :=
  msg ++ [0x80] ++ List.replicate ((64 - (msg.length + 9) % 64) % 64) 0
      ++ toBytesBE (msg.length * 8) 8

/-- Message-schedule extension: append words until the schedule has 64. -/
def scheduleGo (acc : List Nat) : Nat → List Nat
  | 0 => acc
  | n + 1 =>
      let i := acc.length
      let x15 := acc.getD (i - 15) 0
      let x2 := acc.getD (i - 2) 0
      let s0 := (rotr x15 7) ^^^ (rotr x15 18) ^^^ (x15 >>> 3)
      let s1 := (rotr x2 17) ^^^ (rotr x2 19) ^^^ (x2 >>> 10)
      scheduleGo (acc ++ [w32 (acc.getD (i - 16) 0 + s0 + acc.getD (i - 7) 0 + s1)]) n

/-- One SHA-256 compression round on the 8-word working state. -/
def sha256round (st : List Nat) (kw : Nat × Nat) : List Nat :=
  let a := st.getD 0 0
  let b := st.getD 1 0
  let c := st.getD 2 0
  let d := st.getD 3 0
  let e := st.getD 4 0
  let f := st.getD 5 0
  let g := st.getD 6 0
  let h := st.getD 7 0
  let S1 := (rotr e 6) ^^^ (rotr e 11) ^^^ (rotr e 25)
  let ch := (e &&& f) ^^^ ((0xffffffff ^^^ e) &&& g)
  let t1 := w32 (h + S1 + ch + kw.1 + kw.2)
  let S0 := (rotr a 2) ^^^ (rotr a 13) ^^^ (rotr a 22)
  let mj := (a &&& b) ^^^ (a &&& c) ^^^ (b &&& c)
  let t2 := w32 (S0 + mj)
  [w32 (t1 + t2), a, b, c, w32 (d + t1), e, f, g]

/-- Compress one 16-word chunk into the hash state. -/
def sha256compress (hs : List Nat) (chunk : List Nat) : List Nat :=
  let ws := scheduleGo chunk 48
  let st := (sha256K.zip ws).foldl sha256round hs
  List.zipWith (fun x y => w32 (x + y)) hs st

/-- Fold the compression over the padded message, 16 words at a time. -/
def sha256chunksGo (hs : List Nat) (ws : List Nat) : Nat → List Nat
  | 0 => hs
  | fuel + 1 =>
      match ws with
      | [] => hs
      | _ => sha256chunksGo (sha256compress hs (ws.take 16)) (ws.drop 16) fuel

/-- Lower-case hex digit. -/
def hexDigit (n : Nat) : Char :=
  if n < 10 then Char.ofNat (48 + n) else Char.ofNat (87 + n)

/-- Lower-case hex rendering of a Nat on a fixed number of digits. -/
def toHexBE (n : Nat) : Nat → List Char
  | 0 => []
  | d + 1 => toHexBE (n >>> 4) d ++ [hexDigit (n % 16)]

/-- UTF-8 bytes of a string, as `str.encode()` produces them. -/
def strBytes (s : String) : List Nat := s.toUTF8.toList.map (fun b => b.toNat)

/-- Hex digest of SHA-256 of the UTF-8 encoding of a string:
model of `hashlib.sha256(x.encode()).hexdigest()`. -/
def sha256hex (s : String) : String :=
  let ws := bytesToWordsBE (sha256pad (strBytes s))
  let hs := sha256chunksGo sha256H0 ws ws.length
  String.mk ((hs.map (fun h => toHexBE h 8)).flatten)

/-- Model of `make_hash(*args)` (src/collectors/base.py lines 20-25):
render each argument with the empty string for None, join on a bar
delimiter, SHA-256, keep the first 32 hex characters. -/
def make_hash (args : List PyVal) : String :=
  (sha256hex (String.intercalate "|" (args.map renderField))).take 32

/-! ## Timestamp normalizers (src/collectors/base.py lines 74-91)

Source-native numeric timestamps are modelled as rationals (SQLite REAL);
the Python `int()` cast truncates toward zero. -/

/-- Seconds between 1970-01-01 and the Apple reference date 2001-01-01. -/
def APPLE_EPOCH_OFFSET : Int := 978307200

/-- Seconds between 1601-01-01 (Chrome reference date) and 1970-01-01. -/
def CHROME_EPOCH_OFFSET : Int := 11644473600

/-- Python `int()` on a rational: truncation toward zero (t-division of
the reduced numerator by the denominator). -/
def pyInt (q : ℚ) : Int := Int.tdiv q.num (q.den : Int)

/-- Model of `apple_to_unix` (lines 74-78): None for a null or
non-positive input, else seconds plus the Apple offset. -/
def apple_to_unix : Option ℚ → Option Int
  | Option.none => Option.none
  | Option.some t =>
      if t ≤ 0 then Option.none else Option.some (pyInt (t + (APPLE_EPOCH_OFFSET : ℚ)))

/-- Model of `apple_nano_to_unix` (lines 80-84): nanoseconds divided by
10 ^ 9 plus the Apple offset. -/
def apple_nano_to_unix : Option ℚ → Option Int
  | Option.none => Option.none
  | Option.some t =>
      if t ≤ 0 then Option.none
      else Option.some (pyInt (t / 1000000000 + (APPLE_EPOCH_OFFSET : ℚ)))

/-- Model of `chrome_to_unix` (lines 86-91): microseconds divided by
10 ^ 6 minus the Chrome offset magnitude. -/
def chrome_to_unix : Option ℚ → Option Int
  | Option.none => Option.none
  | Option.some t =>
      if t ≤ 0 then Option.none
      else Option.some (pyInt (t / 1000000 - (CHROME_EPOCH_OFFSET : ℚ)))

/-! ## Record variants and per-row processing

Each collector iterates the rows of one source query, normalizes
timestamps, computes the dedup key, and attempts an insert.  The per-row
part is embedded as a function returning None when the row is dropped
before any insert is attempted. -/

/-- PyVal of a nullable string column. -/
def pyOfStr : Option String → PyVal
  | Option.none => PyVal.none
  | Option.some s => PyVal.str s

/-- Row of the app-usage query of src/collectors/knowledgec.py (lines
47-59): ZVALUESTRING is non-null by the WHERE clause. -/
structure AppUsageRaw where
  bundle_id : String
  start_date : Option ℚ
  end_date : Option ℚ
  device_id : Option String
deriving DecidableEq, Repr

/-- Row of the app_usage table (src/schema.py lines 20-30). -/
structure AppUsageRecord where
  record_hash : String
  bundle_id : String
  start_time : Int
  end_time : Option Int
  duration_seconds : Option Int
  device_id : Option String
  device_model : Option String
deriving DecidableEq, Repr

/-- Python dict.get on the device map of `_get_device_mapping`. -/
def deviceMapGet (dm : List (String × String)) (d : String) : Option String :=
  (dm.find? (fun p => p.1 == d)).map (fun p => p.2)

/-- Loop body of `_extract_app_usage` (src/collectors/knowledgec.py lines
61-74) up to the insert attempt.  None models `continue` before any
insert; the duration guard keeps the Python truthiness of
`if end_time and start_time` (0 is falsy). -/
def processAppUsageRow (dm : List (String × String)) (r : AppUsageRaw) :
    Option AppUsageRecord :=
  match apple_to_unix r.start_date with
  | Option.none => Option.none
  | Option.some start_time =>
      let end_time := apple_to_unix r.end_date
      let duration : Option Int :=
        match end_time with
        | Option.some e =>
            if e ≠ 0 ∧ start_time ≠ 0 then Option.some (e - start_time) else Option.none
        | Option.none => Option.none
      let device_model : Option String :=
        match r.device_id with
        | Option.some d => if d ≠ "" then deviceMapGet dm d else Option.none
        | Option.none => Option.none
      Option.some
        { record_hash := make_hash [PyVal.str r.bundle_id, PyVal.int start_time,
                                    pyOfStr r.device_id],
          bundle_id := r.bundle_id, start_time := start_time, end_time := end_time,
          duration_seconds := duration, device_id := r.device_id,
          device_model := device_model }

/-- Row of the bluetooth query of src/collectors/knowledgec.py (lines
92-105). -/
structure BluetoothRaw where
  start_date : Option ℚ
  end_date : Option ℚ
  name : Option String
  address : Option String
  device_type : Option Int
  product_id : Option Int
deriving DecidableEq, Repr

/-- Row of the bluetooth_connections table (src/schema.py lines 45-55). -/
structure BluetoothRecord where
  record_hash : String
  device_name : Option String
  device_address : Option String
  device_type : Option Int
  product_id : Option Int
  start_time : Int
  end_time : Option Int
  duration_seconds : Option Int
deriving DecidableEq, Repr

/-- Loop body of `_extract_bluetooth` (src/collectors/knowledgec.py lines
107-119) up to the insert attempt. -/
def processBluetoothRow (r : BluetoothRaw) : Option BluetoothRecord :=
  match apple_to_unix r.start_date with
  | Option.none => Option.none
  | Option.some start_time =>
      let end_time := apple_to_unix r.end_date
      let duration : Option Int :=
        match end_time with
        | Option.some e =>
            if e ≠ 0 ∧ start_time ≠ 0 then Option.some (e - start_time) else Option.none
        | Option.none => Option.none
      Option.some
        { record_hash := make_hash [pyOfStr r.address, PyVal.int start_time],
          device_name := r.name, device_address := r.address,
          device_type := r.device_type, product_id := r.product_id,
          start_time := start_time, end_time := end_time,
          duration_seconds := duration }

/-- Row of the messages query of
src/src/extraction/collectors/messages.py (lines 72-92). -/
structure MessageRaw where
  guid : Option String
  text : Option String
  is_from_me : Option Int
  date : Option ℚ
  date_read : Option ℚ
  date_delivered : Option ℚ
  handle_id : Option String
  chat_guid : Option String
  service : Option String
  attachment_count : Option Int
deriving DecidableEq, Repr

/-- Row of the messages table (src/schema.py lines 67-79). -/
structure MessageRecord where
  record_hash : String
  text : Option String
  is_from_me : Option Int
  timestamp : Int
  date_read : Option Int
  date_delivered : Option Int
  handle_id : Option String
  chat_id : Option String
  service : Option String
  has_attachment : Int
deriving DecidableEq, Repr

/-- Loop body of `_extract_messages` (messages.py lines 94-109) up to the
insert attempt: rows with a falsy guid, then rows whose date normalizes
to None, are dropped. -/
def processMessageRow (r : MessageRaw) : Option MessageRecord :=
  match r.guid with
  | Option.none => Option.none
  | Option.some guid =>
      if guid = "" then Option.none
      else
        match apple_nano_to_unix r.date with
        | Option.none => Option.none
        | Option.some timestamp =>
            let has_attachment : Int :=
              match r.attachment_count with
              | Option.some n => if n ≠ 0 ∧ 0 < n then 1 else 0
              | Option.none => 0
            Option.some
              { record_hash := guid, text := r.text, is_from_me := r.is_from_me,
                timestamp := timestamp,
                date_read := apple_nano_to_unix r.date_read,
                date_delivered := apple_nano_to_unix r.date_delivered,
                handle_id := r.handle_id, chat_id := r.chat_guid,
                service := r.service, has_attachment := has_attachment }

/-- Row of the episode query of src/collectors/podcasts.py (lines 72-88). -/
structure EpisodeRaw where
  uuid : Option String
  title : Option String
  show_title : Option String
  show_uuid : Option String
  duration : Option ℚ
  playhead : Option ℚ
  play_count : Option Int
  last_played : Option ℚ
  pub_date : Option ℚ
deriving DecidableEq, Repr

/-- Row of the podcast_episodes table (src/schema.py lines 92-103). -/
structure EpisodeRecord where
  record_hash : String
  episode_title : Option String
  show_title : Option String
  show_uuid : Option String
  duration_seconds : Option ℚ
  played_seconds : Option ℚ
  play_count : Option Int
  last_played_at : Option Int
  published_at : Option Int
deriving DecidableEq, Repr

/-- Loop body of `_extract_episodes` (src/collectors/podcasts.py lines
90-99) up to the insert attempt: only rows with a falsy uuid are
dropped; the timestamps may normalize to None and are stored as such. -/
def processEpisodeRow (r : EpisodeRaw) : Option EpisodeRecord :=
  match r.uuid with
  | Option.none => Option.none
  | Option.some uuid =>
      if uuid = "" then Option.none
      else
        Option.some
          { record_hash := uuid, episode_title := r.title,
            show_title := r.show_title, show_uuid := r.show_uuid,
            duration_seconds := r.duration, played_seconds := r.playhead,
            play_count := r.play_count,
            last_played_at := apple_to_unix r.last_played,
            published_at := apple_to_unix r.pub_date }

/-! ## Insert-or-skip and the shared extraction loop -/

/-- Per-collector counters (src/collectors/base.py lines 38-39). -/
structure Counters where
  records_added : Nat
  records_skipped : Nat
deriving DecidableEq, Repr

/-- Insert under the UNIQUE constraint on record_hash: an existing row
with the same hash leaves the table unchanged and reports False (the
sqlite3.IntegrityError path); otherwise the record is appended. -/
def insertUnique {α : Type} (hashOf : α → String) (table : List α) (rec : α) :
    List α × Bool :=
  if table.any (fun row => hashOf row == hashOf rec) then (table, false)
  else (table ++ [rec], true)

/-- Shared shape of every collector sub-pass: process each row; a dropped
row touches nothing; an insert increments records_added; a duplicate is
recovered as a records_skipped increment and the loop continues. -/
def extractLoop {ρ α : Type} (process : ρ → Option α) (hashOf : α → String) :
    List ρ → List α → Counters → List α × Counters
  | [], table, c => (table, c)
  | r :: rest, table, c =>
      match process r with
      | Option.none => extractLoop process hashOf rest table c
      | Option.some rec =>
          let res := insertUnique hashOf table rec
          if res.2 then
            extractLoop process hashOf rest res.1
              { c with records_added := c.records_added + 1 }
          else
            extractLoop process hashOf rest res.1
              { c with records_skipped := c.records_skipped + 1 }

/-- The `_extract_app_usage` sub-pass over a snapshot of rows. -/
def extract_app_usage (dm : List (String × String)) (rows : List AppUsageRaw)
    (table : List AppUsageRecord) (c : Counters) : List AppUsageRecord × Counters :=
  extractLoop (processAppUsageRow dm) AppUsageRecord.record_hash rows table c

/-! ## Extraction run ledger and the run pipeline
(src/collectors/base.py lines 108-160) -/

/-- Status column of extraction_runs. -/
inductive RunStatus where
  | running
  | completed
  | failed
deriving DecidableEq, Repr

/-- Row of the extraction_runs table (src/schema.py lines 9-17). -/
structure ExtractionRun where
  id : Nat
  started_at : Int
  completed_at : Option Int
  source : String
  records_added : Nat
  records_skipped : Nat
  status : RunStatus
deriving DecidableEq, Repr

/-- Model of `start_extraction_run` (base.py lines 108-115): insert a
running row with the current time, counters at their defaults, and no
completion time; return the fresh AUTOINCREMENT id. -/
def start_extraction_run (ledger : List ExtractionRun) (now : Int) (src : String) :
    List ExtractionRun × Nat :=
  let run_id := ledger.length + 1
  (ledger ++ [{ id := run_id, started_at := now, completed_at := Option.none,
                source := src, records_added := 0, records_skipped := 0,
                status := RunStatus.running }], run_id)

/-- Model of `complete_extraction_run` (base.py lines 117-124): set the
completion time, the counters and the final status on the row with the
given id. -/
def complete_extraction_run (ledger : List ExtractionRun) (run_id : Nat)
    (now : Int) (c : Counters) (status : RunStatus) : List ExtractionRun :=
  ledger.map (fun row =>
    if row.id = run_id then
      { row with completed_at := Option.some now,
                 records_added := c.records_added,
                 records_skipped := c.records_skipped,
                 status := status }
    else row)

/-- What the abstract `extract()` call did: returned a boolean, or raised
an exception. -/
inductive ExtractOutcome where
  | ok (success : Bool)
  | raises
deriving DecidableEq, Repr

/-- How `run()` gives control back: a normal return, or a propagated
exception. -/
inductive RunResult where
  | normal (success : Bool)
  | exc
deriving DecidableEq, Repr

/-- Model of `BaseCollector.run` (base.py lines 134-160).  When the
snapshot copy fails, run returns False with no ledger row.  Otherwise a
running row is started; if extract returns, the row is completed with
status completed or failed by the boolean; if extract raises, the row is
marked failed before the exception propagates. -/
def runCollector (snapshotOk : Bool) (outcome : ExtractOutcome) (c : Counters)
    (tStart tEnd : Int) (src : String) (ledger : List ExtractionRun) :
    List ExtractionRun × RunResult :=
  if snapshotOk = false then (ledger, RunResult.normal false)
  else
    let started := start_extraction_run ledger tStart src
    match outcome with
    | ExtractOutcome.ok success =>
        (complete_extraction_run started.1 started.2 tEnd c
           (if success then RunStatus.completed else RunStatus.failed),
         RunResult.normal success)
    | ExtractOutcome.raises =>
        (complete_extraction_run started.1 started.2 tEnd c RunStatus.failed,
         RunResult.exc)

/-! ## Interval merger (src/python-cli/stat-page.py, get_bluetooth_data)

Timestamps here are Unix seconds as stored in bluetooth_connections
(SQLite INTEGER).  The local timezone of datetime.fromtimestamp is
modelled as a fixed zero offset, so local midnights fall at multiples of
86400 seconds. -/

/-- Lexicographic order on pairs, as Python `sorted` compares tuples. -/
def pairLe (a b : Int × Int) : Prop := a.1 < b.1 ∨ (a.1 = b.1 ∧ a.2 ≤ b.2)

instance : DecidableRel pairLe := fun a b => by unfold pairLe; infer_instance

instance : IsTotal (Int × Int) pairLe := ⟨by
  intro a b
  rcases lt_trichotomy a.1 b.1 with h | h | h
  · exact Or.inl (Or.inl h)
  · rcases le_total a.2 b.2 with h2 | h2
    · exact Or.inl (Or.inr ⟨h, h2⟩)
    · exact Or.inr (Or.inr ⟨h.symm, h2⟩)
  · exact Or.inr (Or.inl h)⟩

instance : IsTrans (Int × Int) pairLe := ⟨by
  rintro a b c (h | ⟨h, h2⟩) (g | ⟨g, g2⟩)
  · exact Or.inl (h.trans g)
  · exact Or.inl (g ▸ h)
  · exact Or.inl (h ▸ g)
  · exact Or.inr ⟨h.trans g, h2.trans g2⟩⟩

/-- Model of Python `sorted(intervals)`: a sorted permutation under the
lexicographic order. -/
def sortPairs (l : List (Int × Int)) : List (Int × Int) := l.insertionSort pairLe

/-- Inner loop of `merge_intervals` (stat-page.py lines 255-261): the
accumulator is the last merged interval, extended while the next start
does not pass its end. -/
def mergeGo : (Int × Int) → List (Int × Int) → List (Int × Int)
  | acc, [] => [acc]
  | acc, (s, e) :: tl =>
      if s ≤ acc.2 then mergeGo (acc.1, max acc.2 e) tl
      else acc :: mergeGo (s, e) tl

/-- Model of `merge_intervals` (stat-page.py lines 250-261). -/
def merge_intervals (l : List (Int × Int)) : List (Int × Int) :=
  match sortPairs l with
  | [] => []
  | first :: rest => mergeGo first rest

/-- Closed rational interval denoted by an integer (start, end) pair. -/
def iSet (p : Int × Int) : Set ℚ := Set.Icc (p.1 : ℚ) (p.2 : ℚ)

/-- Union of the intervals of a list of integer pairs. -/
def unionSet (l : List (Int × Int)) : Set ℚ := ⋃ p ∈ l, iSet p

/-- Closed rational interval with rational endpoints (for comparison
against an arbitrary non-overlapping family). -/
def iSetQ (p : ℚ × ℚ) : Set ℚ := Set.Icc p.1 p.2

/-- Union of the intervals of a list of rational pairs. -/
def unionSetQ (l : List (ℚ × ℚ)) : Set ℚ := ⋃ p ∈ l, iSetQ p

/-! ## Day split and per-day aggregation (get_bluetooth_data) -/

/-- Calendar day index of a Unix second under the fixed-offset timezone:
the floor of division by 86400. -/
def dayOf (t : Int) : Int := Int.fdiv t 86400

/-- One (day, seconds) contribution of an interval, with the flag telling
whether it also increments the connection count of its (day, device)
key. -/
structure DayChunk where
  day : Int
  secs : Int
  conn : Bool
deriving DecidableEq, Repr

/-- While loop of the split-across-days branch (stat-page.py lines
286-307): d is current_date, cur is current_dt; a day chunk is kept only
when its seconds are positive, and the connection count is credited only
on the starting day.  The fuel bounds the walk and is chosen to cover
every day up to endDay. -/
def splitGo (d cur startDay endDay endTs : Int) : Nat → List DayChunk
  | 0 => []
  | fuel + 1 =>
      if endDay < d then []
      else
        let nextMid := (d + 1) * 86400
        let daySeconds := if d = endDay then endTs - endDay * 86400 else nextMid - cur
        let rest := splitGo (d + 1) nextMid startDay endDay endTs fuel
        if 0 < daySeconds then ⟨d, daySeconds, d == startDay⟩ :: rest else rest

/-- Day attribution of one merged interval (stat-page.py lines 270-307):
a same-day interval contributes its whole duration to its day and one
connection; an interval crossing midnight walks day by day. -/
def daySplit (s e : Int) : List DayChunk :=
  let sd := dayOf s
  let ed := dayOf e
  if sd = ed then [⟨sd, e - s, true⟩]
  else splitGo sd s sd ed e ((ed - sd).toNat + 1)

/-- Raw query rows of get_bluetooth_data (stat-page.py lines 233-241):
device_name, start_time, end_time, all non-null by the WHERE clause. -/
def deviceIntervals (rows : List (String × Int × Int)) (d : String) :
    List (Int × Int) :=
  (rows.filter (fun r => r.1 == d)).filterMap
    (fun r => if r.2.1 < r.2.2 then Option.some (r.2.1, r.2.2) else Option.none)

/-- All day chunks of one device: its intervals are merged and each
merged interval is split across days. -/
def deviceChunks (rows : List (String × Int × Int)) (d : String) : List DayChunk :=
  (merge_intervals (deviceIntervals rows d)).flatMap (fun p => daySplit p.1 p.2)

/-- The total_time accumulated on one (day, device) key of daily_data
(stat-page.py lines 280-302). -/
def deviceDayTotal (rows : List (String × Int × Int)) (d : String) (day : Int) : Int :=
  (((deviceChunks rows d).filter (fun c => c.day == day)).map DayChunk.secs).sum

/-- The days on which a device has an emitted (day, device) key. -/
def emittedDaysFor (rows : List (String × Int × Int)) (d : String) : List Int :=
  ((deviceChunks rows d).map DayChunk.day).dedup

/-- Distinct device names of the raw rows. -/
def devicesOf (rows : List (String × Int × Int)) : List String :=
  (rows.map (fun r => r.1)).dedup

/-- Devices with an emitted (day, device) key on the given day. -/
def activeDevices (rows : List (String × Int × Int)) (day : Int) : List String :=
  (devicesOf rows).filter (fun d => (deviceChunks rows d).any (fun c => c.day == day))

/-- Clamped portion of the interval (s, e) inside the window of day D. -/
def portion (s e D : Int) : Int := min e ((D + 1) * 86400) - max s (D * 86400)

/-- Raw app-usage row of the end-to-end idempotency scenario. -/
def scenarioRow : AppUsageRaw :=
  { bundle_id := "com.apple.Safari", start_date := Option.some 1000,
    end_date := Option.some 1600, device_id := Option.none }

/-- The unified-store record produced from scenarioRow. -/
def scenarioRecord : AppUsageRecord :=
  { record_hash := make_hash [PyVal.str "com.apple.Safari", PyVal.int 978308200,
      pyOfStr Option.none],
    bundle_id := "com.apple.Safari", start_time := 978308200,
    end_time := Option.some 978308800, duration_seconds := Option.some 600,
    device_id := Option.none, device_model := Option.none }

/-! # Theorems -/

/-- C10: make_hash is insensitive to replacing a None argument by the
empty string at any position (both render to the empty string before
joining and hashing), so a null field and an empty-string field in the
same position always collide to the same record_hash. -/
theorem C10_make_hash_none_empty_collision (a c : List PyVal) :
    make_hash (a ++ PyVal.none :: c) = make_hash (a ++ PyVal.str "" :: c) := by
  have h : (a ++ PyVal.none :: c).map renderField
      = (a ++ PyVal.str "" :: c).map renderField := by
    simp [renderField]
  unfold make_hash
  rw [h]

/-- C8: each of the three timestamp conversions returns None for a null
input and for every non-positive input (zero included), and returns the
converted Unix-seconds value for every positive input: seconds plus the
Apple offset, nanoseconds divided by ten to the ninth plus the Apple
offset, microseconds divided by ten to the sixth minus the Chrome offset
magnitude. -/
theorem C8_timestamp_conversions :
    (apple_to_unix Option.none = Option.none
      ∧ apple_to_unix (Option.some 0) = Option.none
      ∧ (∀ x : ℚ, x ≤ 0 → apple_to_unix (Option.some x) = Option.none)
      ∧ (∀ x : ℚ, 0 < x → apple_to_unix (Option.some x)
            = Option.some (pyInt (x + 978307200))))
  ∧ (apple_nano_to_unix Option.none = Option.none
      ∧ apple_nano_to_unix (Option.some 0) = Option.none
      ∧ (∀ x : ℚ, x ≤ 0 → apple_nano_to_unix (Option.some x) = Option.none)
      ∧ (∀ x : ℚ, 0 < x → apple_nano_to_unix (Option.some x)
            = Option.some (pyInt (x / 1000000000 + 978307200))))
  ∧ (chrome_to_unix Option.none = Option.none
      ∧ chrome_to_unix (Option.some 0) = Option.none
      ∧ (∀ x : ℚ, x ≤ 0 → chrome_to_unix (Option.some x) = Option.none)
      ∧ (∀ x : ℚ, 0 < x → chrome_to_unix (Option.some x)
            = Option.some (pyInt (x / 1000000 - 11644473600)))) := by
  refine ⟨⟨rfl, ?_, ?_, ?_⟩, ⟨rfl, ?_, ?_, ?_⟩, ⟨rfl, ?_, ?_, ?_⟩⟩
  · simp [apple_to_unix]
  · intro x hx; simp [apple_to_unix, if_pos hx]
  · intro x hx
    simp only [apple_to_unix, if_neg (not_le.mpr hx)]
    norm_num [APPLE_EPOCH_OFFSET]
  · simp [apple_nano_to_unix]
  · intro x hx; simp [apple_nano_to_unix, if_pos hx]
  · intro x hx
    simp only [apple_nano_to_unix, if_neg (not_le.mpr hx)]
    norm_num [APPLE_EPOCH_OFFSET]
  · simp [chrome_to_unix]
  · intro x hx; simp [chrome_to_unix, if_pos hx]
  · intro x hx
    simp only [chrome_to_unix, if_neg (not_le.mpr hx)]
    norm_num [CHROME_EPOCH_OFFSET]

/-- C8 witness: the zero input is rejected as absent, the input 1 is
converted. -/
theorem C8_timestamp_conversions_witness :
    apple_to_unix (Option.some 0) = Option.none
  ∧ chrome_to_unix (Option.some 0) = Option.none
  ∧ apple_to_unix (Option.some 1) = Option.some (pyInt (1 + 978307200)) := by
  refine ⟨?_, ?_, ?_⟩
  · exact C8_timestamp_conversions.1.2.2.1 0 le_rfl
  · exact C8_timestamp_conversions.2.2.2.2.1 0 le_rfl
  · exact C8_timestamp_conversions.1.2.2.2 1 zero_lt_one


/-- Helper for the run ledger: after start and complete, every row not
already in the ledger carries the final status and the completion time,
and such a row exists. -/
theorem completeRun_spec (ledger : List ExtractionRun) (tStart tEnd : Int)
    (src : String) (c : Counters) (st : RunStatus) :
    (∀ row ∈ complete_extraction_run (start_extraction_run ledger tStart src).1
        (start_extraction_run ledger tStart src).2 tEnd c st,
      row ∉ ledger → row.status = st ∧ row.completed_at = Option.some tEnd)
  ∧ (∃ row ∈ complete_extraction_run (start_extraction_run ledger tStart src).1
        (start_extraction_run ledger tStart src).2 tEnd c st,
      row.status = st ∧ row.completed_at = Option.some tEnd) := by
  constructor
  · intro row hmem hnot
    simp only [complete_extraction_run, start_extraction_run, List.map_append,
      List.mem_append, List.mem_map, List.map_cons, List.map_nil,
      List.mem_cons, List.not_mem_nil, or_false] at hmem
    rcases hmem with ⟨orig, horig, hrow⟩ | hnew
    · by_cases hid : orig.id = ledger.length + 1
      · rw [if_pos hid] at hrow
        subst hrow
        exact ⟨rfl, rfl⟩
      · rw [if_neg hid] at hrow
        subst hrow
        exact absurd horig hnot
    · simp only [if_true] at hnew
      subst hnew
      exact ⟨rfl, rfl⟩
  · refine ⟨{ id := ledger.length + 1, started_at := tStart,
              completed_at := Option.some tEnd, source := src,
              records_added := c.records_added,
              records_skipped := c.records_skipped, status := st }, ?_, rfl, rfl⟩
    simp [complete_extraction_run, start_extraction_run]

/-- C3: whatever extract() did (returned true, returned false, or
raised an exception), every extraction_runs row created by run() has
status completed or failed with a non-null completed_at when run() gives
control back; in the raise case the run is marked failed and the
exception still propagates.  No row created by run() is left with status
running. -/
theorem C3_run_ledger_consistency (snapshotOk : Bool) (outcome : ExtractOutcome)
    (c : Counters) (tStart tEnd : Int) (src : String)
    (ledger : List ExtractionRun) :
    (∀ row ∈ (runCollector snapshotOk outcome c tStart tEnd src ledger).1,
        row ∉ ledger →
          (row.status = RunStatus.completed ∨ row.status = RunStatus.failed)
            ∧ row.completed_at ≠ Option.none)
  ∧ (outcome = ExtractOutcome.raises → snapshotOk = true →
        (runCollector snapshotOk outcome c tStart tEnd src ledger).2 = RunResult.exc
          ∧ ∃ row ∈ (runCollector snapshotOk outcome c tStart tEnd src ledger).1,
              row.status = RunStatus.failed ∧ row.completed_at ≠ Option.none) := by
  cases snapshotOk with
  | false =>
      constructor
      · intro row hmem hnot
        simp only [runCollector, if_pos rfl] at hmem
        exact absurd hmem hnot
      · intro _ hsnap
        exact absurd hsnap (by simp)
  | true =>
      cases outcome with
      | ok success =>
          constructor
          · intro row hmem hnot
            have hrun : (runCollector true (ExtractOutcome.ok success) c tStart tEnd src ledger).1
                = complete_extraction_run (start_extraction_run ledger tStart src).1
                    (start_extraction_run ledger tStart src).2 tEnd c
                    (if success then RunStatus.completed else RunStatus.failed) := by
              simp [runCollector]
            rw [hrun] at hmem
            have h := (completeRun_spec ledger tStart tEnd src c
              (if success then RunStatus.completed else RunStatus.failed)).1 row hmem hnot
            refine ⟨?_, by simp [h.2]⟩
            cases success with
            | true => exact Or.inl h.1
            | false => exact Or.inr h.1
          · intro hout
            exact absurd hout (by simp)
      | raises =>
          have hrun : runCollector true ExtractOutcome.raises c tStart tEnd src ledger
              = (complete_extraction_run (start_extraction_run ledger tStart src).1
                    (start_extraction_run ledger tStart src).2 tEnd c RunStatus.failed,
                 RunResult.exc) := by
            simp [runCollector]
          constructor
          · intro row hmem hnot
            rw [hrun] at hmem
            have h := (completeRun_spec ledger tStart tEnd src c RunStatus.failed).1 row hmem hnot
            exact ⟨Or.inr h.1, by simp [h.2]⟩
          · intro _ _
            rw [hrun]
            obtain ⟨row, hrow, hst, hca⟩ := (completeRun_spec ledger tStart tEnd src c RunStatus.failed).2
            exact ⟨rfl, row, hrow, hst, by simp [hca]⟩

/-- C3 witness: a raising extraction on an empty ledger. -/
theorem C3_run_ledger_consistency_witness :
    ((runCollector true ExtractOutcome.raises ⟨2, 3⟩ 5 7 "knowledgeC" []).2 = RunResult.exc
      ∧ ∃ row ∈ (runCollector true ExtractOutcome.raises ⟨2, 3⟩ 5 7 "knowledgeC" []).1,
          row.status = RunStatus.failed ∧ row.completed_at ≠ Option.none) := by
  exact (C3_run_ledger_consistency true ExtractOutcome.raises ⟨2, 3⟩ 5 7 "knowledgeC" []).2 rfl rfl

/-! ## Helper lemmas: the extraction loop -/
theorem extractLoop_nil {ρ α : Type} (process : ρ → Option α) (hashOf : α → String)
    (table : List α) (c : Counters) :
    extractLoop process hashOf [] table c = (table, c) := rfl

theorem extractLoop_drop {ρ α : Type} (process : ρ → Option α) (hashOf : α → String)
    (r : ρ) (rest : List ρ) (table : List α) (c : Counters)
    (hp : process r = Option.none) :
    extractLoop process hashOf (r :: rest) table c
      = extractLoop process hashOf rest table c := by
  simp [extractLoop, hp]

theorem insertUnique_dup {α : Type} (hashOf : α → String) (table : List α) (rec : α)
    (hdup : hashOf rec ∈ table.map hashOf) :
    insertUnique hashOf table rec = (table, false) := by
  unfold insertUnique
  have hany : table.any (fun row => hashOf row == hashOf rec) = true := by
    rcases List.mem_map.1 hdup with ⟨row, hrow, hEq⟩
    exact List.any_eq_true.2 ⟨row, hrow, by simp [hEq]⟩
  simp [hany]

theorem insertUnique_fresh {α : Type} (hashOf : α → String) (table : List α) (rec : α)
    (hfresh : hashOf rec ∉ table.map hashOf) :
    insertUnique hashOf table rec = (table ++ [rec], true) := by
  unfold insertUnique
  have hany : table.any (fun row => hashOf row == hashOf rec) = false := by
    rw [List.any_eq_false]
    intro row hrow
    rw [beq_iff_eq]
    intro hEq
    exact hfresh (List.mem_map.2 ⟨row, hrow, hEq⟩)
  simp [hany]

theorem extractLoop_skip {ρ α : Type} (process : ρ → Option α) (hashOf : α → String)
    (r : ρ) (rest : List ρ) (table : List α) (c : Counters) (rec : α)
    (hp : process r = Option.some rec)
    (hdup : hashOf rec ∈ table.map hashOf) :
    extractLoop process hashOf (r :: rest) table c
      = extractLoop process hashOf rest table
          { c with records_skipped := c.records_skipped + 1 } := by
  simp [extractLoop, hp, insertUnique_dup hashOf table rec hdup]

theorem extractLoop_insert {ρ α : Type} (process : ρ → Option α) (hashOf : α → String)
    (r : ρ) (rest : List ρ) (table : List α) (c : Counters) (rec : α)
    (hp : process r = Option.some rec)
    (hfresh : hashOf rec ∉ table.map hashOf) :
    extractLoop process hashOf (r :: rest) table c
      = extractLoop process hashOf rest (table ++ [rec])
          { c with records_added := c.records_added + 1 } := by
  simp [extractLoop, hp, insertUnique_fresh hashOf table rec hfresh]

theorem extractLoop_suffix {ρ α : Type} (process : ρ → Option α) (hashOf : α → String) :
    ∀ (rows : List ρ) (table : List α) (c : Counters),
      ∃ ext, (extractLoop process hashOf rows table c).1 = table ++ ext := by
  intro rows
  induction rows with
  | nil => exact fun table c => ⟨[], by simp [extractLoop_nil]⟩
  | cons r rest ih =>
      intro table c
      cases hp : process r with
      | none => simpa [extractLoop_drop _ _ _ _ _ _ hp] using ih table c
      | some rec =>
          by_cases hdup : hashOf rec ∈ table.map hashOf
          · rw [extractLoop_skip _ _ _ _ _ _ _ hp hdup]
            exact ih table _
          · rw [extractLoop_insert _ _ _ _ _ _ _ hp hdup]
            obtain ⟨ext, hext⟩ := ih (table ++ [rec]) _
            exact ⟨[rec] ++ ext, by rw [hext, List.append_assoc]⟩

theorem extractLoop_hash_mono {ρ α : Type} (process : ρ → Option α) (hashOf : α → String)
    (rows : List ρ) (table : List α) (c : Counters) (h : String)
    (hmem : h ∈ table.map hashOf) :
    h ∈ ((extractLoop process hashOf rows table c).1).map hashOf := by
  obtain ⟨ext, hext⟩ := extractLoop_suffix process hashOf rows table c
  rw [hext, List.map_append]
  exact List.mem_append_left _ hmem

theorem extractLoop_hashes {ρ α : Type} (process : ρ → Option α) (hashOf : α → String) :
    ∀ (rows : List ρ) (table : List α) (c : Counters),
      ∀ rec ∈ rows.filterMap process,
        hashOf rec ∈ ((extractLoop process hashOf rows table c).1).map hashOf := by
  intro rows
  induction rows with
  | nil => intro table c rec hrec; simp at hrec
  | cons r rest ih =>
      intro table c rec hrec
      cases hp : process r with
      | none =>
          rw [extractLoop_drop _ _ _ _ _ _ hp]
          rw [List.filterMap_cons, hp] at hrec
          exact ih table c rec hrec
      | some rec0 =>
          rw [List.filterMap_cons, hp] at hrec
          by_cases hdup : hashOf rec0 ∈ table.map hashOf
          · rw [extractLoop_skip _ _ _ _ _ _ _ hp hdup]
            rcases List.mem_cons.1 hrec with hEq | htail
            · subst hEq
              exact extractLoop_hash_mono _ _ _ _ _ _ hdup
            · exact ih table _ rec htail
          · rw [extractLoop_insert _ _ _ _ _ _ _ hp hdup]
            rcases List.mem_cons.1 hrec with hEq | htail
            · subst hEq
              refine extractLoop_hash_mono _ _ _ _ _ _ ?_
              simp
            · exact ih _ _ rec htail

theorem extractLoop_all_dup {ρ α : Type} (process : ρ → Option α) (hashOf : α → String) :
    ∀ (rows : List ρ) (table : List α) (c : Counters),
      (∀ rec ∈ rows.filterMap process, hashOf rec ∈ table.map hashOf) →
      extractLoop process hashOf rows table c
        = (table, { records_added := c.records_added,
                    records_skipped := c.records_skipped + (rows.filterMap process).length }) := by
  intro rows
  induction rows with
  | nil => intro table c _; simp [extractLoop_nil]
  | cons r rest ih =>
      intro table c hall
      cases hp : process r with
      | none =>
          rw [extractLoop_drop _ _ _ _ _ _ hp, List.filterMap_cons, hp]
          apply ih
          intro rec hrec
          exact hall rec (by rw [List.filterMap_cons, hp]; exact hrec)
      | some rec0 =>
          have hdup : hashOf rec0 ∈ table.map hashOf := by
            apply hall
            rw [List.filterMap_cons, hp]
            exact List.mem_cons_self _ _
          rw [extractLoop_skip _ _ _ _ _ _ _ hp hdup, List.filterMap_cons, hp]
          rw [ih table _ (fun rec hrec => hall rec (by rw [List.filterMap_cons, hp]; exact List.mem_cons_of_mem _ hrec))]
          simp [List.length_cons]
          omega

theorem extractLoop_counts {ρ α : Type} (process : ρ → Option α) (hashOf : α → String) :
    ∀ (rows : List ρ) (table : List α) (c : Counters),
      (extractLoop process hashOf rows table c).2.records_added
        + (extractLoop process hashOf rows table c).2.records_skipped
        = c.records_added + c.records_skipped + (rows.filterMap process).length := by
  intro rows
  induction rows with
  | nil => intro table c; simp [extractLoop_nil]
  | cons r rest ih =>
      intro table c
      cases hp : process r with
      | none =>
          rw [extractLoop_drop _ _ _ _ _ _ hp, List.filterMap_cons, hp]
          exact ih table c
      | some rec0 =>
          rw [List.filterMap_cons, hp]
          by_cases hdup : hashOf rec0 ∈ table.map hashOf
          · rw [extractLoop_skip _ _ _ _ _ _ _ hp hdup, ih]
            simp [List.length_cons]
            omega
          · rw [extractLoop_insert _ _ _ _ _ _ _ hp hdup, ih]
            simp [List.length_cons]
            omega
/-! ## Helper lemmas: literal evaluation of the normalizers -/

theorem pyInt_intCast (m : Int) : pyInt ((m : Int) : ℚ) = m := by
  simp [pyInt, Rat.num_intCast, Rat.den_intCast]

theorem apple_to_unix_eval (q : ℚ) (m : Int) (hq : ¬ q ≤ 0)
    (h2 : q + (APPLE_EPOCH_OFFSET : ℚ) = (m : ℚ)) :
    apple_to_unix (Option.some q) = Option.some m := by
  simp only [apple_to_unix, if_neg hq, h2, pyInt_intCast]

theorem apple100 : apple_to_unix (Option.some (100 : ℚ)) = Option.some 978307300 :=
  apple_to_unix_eval 100 978307300 (by norm_num) (by norm_num [APPLE_EPOCH_OFFSET])

theorem apple50 : apple_to_unix (Option.some (50 : ℚ)) = Option.some 978307250 :=
  apple_to_unix_eval 50 978307250 (by norm_num) (by norm_num [APPLE_EPOCH_OFFSET])

theorem apple1000 : apple_to_unix (Option.some (1000 : ℚ)) = Option.some 978308200 :=
  apple_to_unix_eval 1000 978308200 (by norm_num) (by norm_num [APPLE_EPOCH_OFFSET])

theorem apple1600 : apple_to_unix (Option.some (1600 : ℚ)) = Option.some 978308800 :=
  apple_to_unix_eval 1600 978308800 (by norm_num) (by norm_num [APPLE_EPOCH_OFFSET])

/-! ## Helper lemmas: positivity of normalized timestamps -/

theorem tdiv_pos (a b : Int) (hb : 0 < b) (hab : b ≤ a) : 0 < Int.tdiv a b := by
  have ha : 0 < a := lt_of_lt_of_le hb hab
  cases a with
  | ofNat m =>
      cases b with
      | ofNat n =>
          show 0 < Int.ofNat (m / n)
          simp only [Int.ofNat_eq_natCast] at hb hab ⊢
          have hn : 0 < n := by omega
          have hnm : n ≤ m := by omega
          have hdiv := Nat.div_pos hnm hn
          omega
      | negSucc n => exact absurd hb (by simp [Int.negSucc_not_pos])
  | negSucc m => exact absurd ha (by simp [Int.negSucc_not_pos])

theorem pyInt_pos (q : ℚ) (h : (1 : ℚ) ≤ q) : 0 < pyInt q := by
  have hden : (0 : Int) < (q.den : Int) := by exact_mod_cast q.pos
  have hnum : (q.den : Int) ≤ q.num := by
    have hq : (1 : ℚ) ≤ (q.num : ℚ) / (q.den : ℚ) := by rw [Rat.num_div_den]; exact h
    have hdq : (0 : ℚ) < (q.den : ℚ) := by exact_mod_cast q.pos
    rw [le_div_iff₀ hdq, one_mul] at hq
    exact_mod_cast hq
  exact tdiv_pos q.num (q.den : Int) hden hnum

theorem apple_to_unix_pos {o : Option ℚ} {v : Int}
    (h : apple_to_unix o = Option.some v) : 0 < v := by
  cases o with
  | none => simp [apple_to_unix] at h
  | some t =>
      by_cases ht : t ≤ 0
      · simp [apple_to_unix, if_pos ht] at h
      · simp only [apple_to_unix, if_neg ht] at h
        have hv := Option.some.inj h
        subst hv
        apply pyInt_pos
        push_neg at ht
        simp only [APPLE_EPOCH_OFFSET]
        push_cast
        linarith

/-- C7 (amended): for app-usage and bluetooth records, the stored
duration_seconds equals end_time minus start_time whenever end_time is
present, and is absent whenever end_time is absent.  The never-negative
part of the original claim fails on the code (see the counterexample):
nothing guards against a source end date preceding the start date. -/
theorem C7_duration_semantics :
    (∀ (dm : List (String × String)) (r : AppUsageRaw) (rec : AppUsageRecord),
        processAppUsageRow dm r = Option.some rec →
          (rec.end_time = Option.none → rec.duration_seconds = Option.none)
        ∧ (∀ e : Int, rec.end_time = Option.some e →
            rec.duration_seconds = Option.some (e - rec.start_time)))
  ∧ (∀ (r : BluetoothRaw) (rec : BluetoothRecord),
        processBluetoothRow r = Option.some rec →
          (rec.end_time = Option.none → rec.duration_seconds = Option.none)
        ∧ (∀ e : Int, rec.end_time = Option.some e →
            rec.duration_seconds = Option.some (e - rec.start_time))) := by
  constructor
  · intro dm r rec hp
    cases hst : apple_to_unix r.start_date with
    | none => rw [processAppUsageRow, hst] at hp; exact absurd hp (by simp)
    | some st =>
        rw [processAppUsageRow, hst] at hp
        simp only [Option.some.injEq] at hp
        subst hp
        cases het : apple_to_unix r.end_date with
        | none => simp [het]
        | some e =>
            have he : (0 : Int) < e := apple_to_unix_pos het
            have hs : (0 : Int) < st := apple_to_unix_pos hst
            constructor
            · intro hcon
              simp at hcon
            · intro e2 he2
              simp only [Option.some.injEq] at he2
              subst he2
              simp [he.ne', hs.ne']
  · intro r rec hp
    cases hst : apple_to_unix r.start_date with
    | none => rw [processBluetoothRow, hst] at hp; exact absurd hp (by simp)
    | some st =>
        rw [processBluetoothRow, hst] at hp
        simp only [Option.some.injEq] at hp
        subst hp
        cases het : apple_to_unix r.end_date with
        | none => simp [het]
        | some e =>
            have he : (0 : Int) < e := apple_to_unix_pos het
            have hs : (0 : Int) < st := apple_to_unix_pos hst
            constructor
            · intro hcon
              simp at hcon
            · intro e2 he2
              simp only [Option.some.injEq] at he2
              subst he2
              simp [he.ne', hs.ne']

/-- C9 (amended): for the knowledgeC streams (app usage, bluetooth) and
the messages collector, a row whose primary timestamp normalizes to
absent is dropped before any insert, and a dropped row leaves the table
and both counters untouched.  The podcasts episode sub-pass does not
follow this policy (see the counterexample): it only drops rows with a
falsy uuid. -/
theorem C9_missing_timestamp_drop :
    (∀ (dm : List (String × String)) (r : AppUsageRaw),
        apple_to_unix r.start_date = Option.none →
        processAppUsageRow dm r = Option.none)
  ∧ (∀ r : BluetoothRaw,
        apple_to_unix r.start_date = Option.none →
        processBluetoothRow r = Option.none)
  ∧ (∀ r : MessageRaw,
        apple_nano_to_unix r.date = Option.none →
        processMessageRow r = Option.none)
  ∧ (∀ (ρ α : Type) (process : ρ → Option α) (hashOf : α → String)
        (r : ρ) (rest : List ρ) (table : List α) (c : Counters),
        process r = Option.none →
        extractLoop process hashOf (r :: rest) table c
          = extractLoop process hashOf rest table c) := by
  refine ⟨?_, ?_, ?_, ?_⟩
  · intro dm r h
    rw [processAppUsageRow, h]
  · intro r h
    rw [processBluetoothRow, h]
  · intro r h
    cases hg : r.guid with
    | none => simp only [processMessageRow, hg]
    | some guid =>
        simp only [processMessageRow, hg]
        by_cases hge : guid = ""
        · rw [if_pos hge]
        · rw [if_neg hge, h]
  · intro ρ α process hashOf r rest table c h
    exact extractLoop_drop process hashOf r rest table c h

/-- C9 witness: an app-usage row with a null start date is dropped and
the loop state is unchanged. -/
theorem C9_missing_timestamp_drop_witness :
    processAppUsageRow []
        { bundle_id := "com.apple.Music", start_date := Option.none,
          end_date := Option.none, device_id := Option.none }
      = Option.none
  ∧ extractLoop (processAppUsageRow []) AppUsageRecord.record_hash
        [{ bundle_id := "com.apple.Music", start_date := Option.none,
           end_date := Option.none, device_id := Option.none }] [] ⟨0, 0⟩
      = extractLoop (processAppUsageRow []) AppUsageRecord.record_hash [] [] ⟨0, 0⟩ := by
  constructor
  · exact C9_missing_timestamp_drop.1 []
      { bundle_id := "com.apple.Music", start_date := Option.none,
        end_date := Option.none, device_id := Option.none } rfl
  · exact C9_missing_timestamp_drop.2.2.2 AppUsageRaw AppUsageRecord
      (processAppUsageRow []) AppUsageRecord.record_hash
      { bundle_id := "com.apple.Music", start_date := Option.none,
        end_date := Option.none, device_id := Option.none } [] [] ⟨0, 0⟩
      (C9_missing_timestamp_drop.1 [] _ rfl)

/-- C9 counterexample: an episode row whose every timestamp normalizes
to absent (null last_played and pub_date) is not dropped: it is inserted
with records_added incremented, contradicting the claim for the podcasts
collector. -/
theorem C9_podcasts_counterexample :
    processEpisodeRow
        { uuid := Option.some "ep-1", title := Option.none,
          show_title := Option.none, show_uuid := Option.none,
          duration := Option.none, playhead := Option.some 5,
          play_count := Option.some 0, last_played := Option.none,
          pub_date := Option.none }
      = Option.some
        { record_hash := "ep-1", episode_title := Option.none,
          show_title := Option.none, show_uuid := Option.none,
          duration_seconds := Option.none, played_seconds := Option.some 5,
          play_count := Option.some 0, last_played_at := Option.none,
          published_at := Option.none }
  ∧ (extractLoop processEpisodeRow EpisodeRecord.record_hash
        [{ uuid := Option.some "ep-1", title := Option.none,
           show_title := Option.none, show_uuid := Option.none,
           duration := Option.none, playhead := Option.some 5,
           play_count := Option.some 0, last_played := Option.none,
           pub_date := Option.none }] [] ⟨0, 0⟩).2
      = ⟨1, 0⟩ := by
  constructor
  · rw [processEpisodeRow]
    simp [apple_to_unix]
  · rw [extractLoop]
    simp only [processEpisodeRow]
    rw [if_neg (by decide : ¬ ("ep-1" = ""))]
    simp [insertUnique, extractLoop]

/-- C2: inserting a candidate record whose record_hash already exists in
the table leaves the table unchanged (never an overwrite), increments
records_skipped by one, and the loop simply continues with the remaining
rows: the duplicate is never surfaced as an error and the sub-pass does
not fail. -/
theorem C2_duplicate_recovered_as_skip (ρ α : Type) (process : ρ → Option α)
    (hashOf : α → String) (r : ρ) (rest : List ρ) (table : List α)
    (c : Counters) (rec : α)
    (hp : process r = Option.some rec)
    (hdup : hashOf rec ∈ table.map hashOf) :
    insertUnique hashOf table rec = (table, false)
  ∧ extractLoop process hashOf (r :: rest) table c
      = extractLoop process hashOf rest table
          { c with records_skipped := c.records_skipped + 1 } :=
  ⟨insertUnique_dup hashOf table rec hdup,
   extractLoop_skip process hashOf r rest table c rec hp hdup⟩

/-- C2 witness: a concrete duplicate episode insert is recovered as a
skip. -/
theorem C2_duplicate_recovered_as_skip_witness :
    insertUnique EpisodeRecord.record_hash
        [{ record_hash := "ep-1", episode_title := Option.none,
           show_title := Option.none, show_uuid := Option.none,
           duration_seconds := Option.none, played_seconds := Option.some 5,
           play_count := Option.some 0, last_played_at := Option.none,
           published_at := Option.none }]
        { record_hash := "ep-1", episode_title := Option.none,
          show_title := Option.none, show_uuid := Option.none,
          duration_seconds := Option.none, played_seconds := Option.some 5,
          play_count := Option.some 0, last_played_at := Option.none,
          published_at := Option.none }
      = ([{ record_hash := "ep-1", episode_title := Option.none,
            show_title := Option.none, show_uuid := Option.none,
            duration_seconds := Option.none, played_seconds := Option.some 5,
            play_count := Option.some 0, last_played_at := Option.none,
            published_at := Option.none }], false)
  ∧ extractLoop processEpisodeRow EpisodeRecord.record_hash
        [{ uuid := Option.some "ep-1", title := Option.none,
           show_title := Option.none, show_uuid := Option.none,
           duration := Option.none, playhead := Option.some 5,
           play_count := Option.some 0, last_played := Option.none,
           pub_date := Option.none }]
        [{ record_hash := "ep-1", episode_title := Option.none,
           show_title := Option.none, show_uuid := Option.none,
           duration_seconds := Option.none, played_seconds := Option.some 5,
           play_count := Option.some 0, last_played_at := Option.none,
           published_at := Option.none }] ⟨0, 0⟩
      = extractLoop processEpisodeRow EpisodeRecord.record_hash []
          [{ record_hash := "ep-1", episode_title := Option.none,
             show_title := Option.none, show_uuid := Option.none,
             duration_seconds := Option.none, played_seconds := Option.some 5,
             play_count := Option.some 0, last_played_at := Option.none,
             published_at := Option.none }] ⟨0, 1⟩ := by
  exact C2_duplicate_recovered_as_skip EpisodeRaw EpisodeRecord
    processEpisodeRow EpisodeRecord.record_hash
    { uuid := Option.some "ep-1", title := Option.none,
      show_title := Option.none, show_uuid := Option.none,
      duration := Option.none, playhead := Option.some 5,
      play_count := Option.some 0, last_played := Option.none,
      pub_date := Option.none } []
    [{ record_hash := "ep-1", episode_title := Option.none,
       show_title := Option.none, show_uuid := Option.none,
       duration_seconds := Option.none, played_seconds := Option.some 5,
       play_count := Option.some 0, last_played_at := Option.none,
       published_at := Option.none }] ⟨0, 0⟩
    { record_hash := "ep-1", episode_title := Option.none,
      show_title := Option.none, show_uuid := Option.none,
      duration_seconds := Option.none, played_seconds := Option.some 5,
      play_count := Option.some 0, last_played_at := Option.none,
      published_at := Option.none }
    (by rw [processEpisodeRow]; simp [apple_to_unix])
    (by simp)

/-- C7 witness: a concrete app-usage record with both timestamps present
stores their difference. -/
theorem C7_duration_semantics_witness :
    (({ record_hash := make_hash [PyVal.str "com.apple.Music", PyVal.int 978307300,
          pyOfStr Option.none],
        bundle_id := "com.apple.Music", start_time := 978307300,
        end_time := Option.some 978308200, duration_seconds := Option.some 900,
        device_id := Option.none, device_model := Option.none } : AppUsageRecord).duration_seconds
      = Option.some ((978308200 : Int) - 978307300)) := by
  have hp : processAppUsageRow []
      { bundle_id := "com.apple.Music", start_date := Option.some 100,
        end_date := Option.some 1000, device_id := Option.none }
      = Option.some
        { record_hash := make_hash [PyVal.str "com.apple.Music", PyVal.int 978307300,
            pyOfStr Option.none],
          bundle_id := "com.apple.Music", start_time := 978307300,
          end_time := Option.some 978308200, duration_seconds := Option.some 900,
          device_id := Option.none, device_model := Option.none } := by
    simp only [processAppUsageRow, apple100, apple1000]
    norm_num
  exact (C7_duration_semantics.1 []
    { bundle_id := "com.apple.Music", start_date := Option.some 100,
      end_date := Option.some 1000, device_id := Option.none } _ hp).2 978308200 rfl

/-- C7 counterexample: a source row whose end date precedes its start
date is stored with a negative duration_seconds of -50, contradicting
the never-negative part of the claim. -/
theorem C7_negative_duration_counterexample :
    ((extractLoop (processAppUsageRow []) AppUsageRecord.record_hash
        [{ bundle_id := "com.apple.Music", start_date := Option.some 100,
           end_date := Option.some 50, device_id := Option.none }] [] ⟨0, 0⟩).1.map
        (fun rec => rec.duration_seconds)) = [Option.some (-50)]
  ∧ (extractLoop (processAppUsageRow []) AppUsageRecord.record_hash
        [{ bundle_id := "com.apple.Music", start_date := Option.some 100,
           end_date := Option.some 50, device_id := Option.none }] [] ⟨0, 0⟩).2
      = ⟨1, 0⟩
  ∧ ((-50 : Int) < 0) := by
  have hp : processAppUsageRow []
      { bundle_id := "com.apple.Music", start_date := Option.some 100,
        end_date := Option.some 50, device_id := Option.none }
      = Option.some
        { record_hash := make_hash [PyVal.str "com.apple.Music", PyVal.int 978307300,
            pyOfStr Option.none],
          bundle_id := "com.apple.Music", start_time := 978307300,
          end_time := Option.some 978307250, duration_seconds := Option.some (-50),
          device_id := Option.none, device_model := Option.none } := by
    simp only [processAppUsageRow, apple100, apple50]
    norm_num
  rw [extractLoop_insert _ _ _ _ _ _ _ hp (by simp), extractLoop_nil]
  refine ⟨by simp, by simp, by norm_num⟩

/-- Processing the scenario row produces the scenario record. -/
theorem scenario_process :
    processAppUsageRow [] scenarioRow = Option.some scenarioRecord := by
  simp only [processAppUsageRow, scenarioRow, scenarioRecord, apple1000, apple1600]
  norm_num

/-- C1: a second run of the app-usage sub-pass over an unchanged
snapshot adds zero records, skips exactly the number of records the
snapshot produces (which equals records_added plus records_skipped of
the first run), and leaves the table identical; and in the one-row
end-to-end scenario the first run reports added 1, skipped 0, the
second run reports added 0, skipped 1, and the table holds exactly one
app_usage row. -/
theorem C1_ingestion_idempotent (dm : List (String × String))
    (rows : List AppUsageRaw) (table0 : List AppUsageRecord) :
    ((extract_app_usage dm rows (extract_app_usage dm rows table0 ⟨0, 0⟩).1 ⟨0, 0⟩).2.records_added = 0
  ∧ (extract_app_usage dm rows (extract_app_usage dm rows table0 ⟨0, 0⟩).1 ⟨0, 0⟩).2.records_skipped
      = (rows.filterMap (processAppUsageRow dm)).length
  ∧ (extract_app_usage dm rows (extract_app_usage dm rows table0 ⟨0, 0⟩).1 ⟨0, 0⟩).2.records_skipped
      = (extract_app_usage dm rows table0 ⟨0, 0⟩).2.records_added
        + (extract_app_usage dm rows table0 ⟨0, 0⟩).2.records_skipped
  ∧ (extract_app_usage dm rows (extract_app_usage dm rows table0 ⟨0, 0⟩).1 ⟨0, 0⟩).1
      = (extract_app_usage dm rows table0 ⟨0, 0⟩).1)
  ∧ (extract_app_usage [] [scenarioRow] [] ⟨0, 0⟩
      = ([scenarioRecord], ⟨1, 0⟩)
  ∧ extract_app_usage [] [scenarioRow] (extract_app_usage [] [scenarioRow] [] ⟨0, 0⟩).1 ⟨0, 0⟩
      = ([scenarioRecord], ⟨0, 1⟩)
  ∧ (extract_app_usage [] [scenarioRow] [] ⟨0, 0⟩).1.length = 1) := by
  constructor
  · have hall : ∀ rec ∈ rows.filterMap (processAppUsageRow dm),
        AppUsageRecord.record_hash rec
          ∈ ((extract_app_usage dm rows table0 ⟨0, 0⟩).1).map AppUsageRecord.record_hash :=
      extractLoop_hashes (processAppUsageRow dm) AppUsageRecord.record_hash rows table0 ⟨0, 0⟩
    have h2 := extractLoop_all_dup (processAppUsageRow dm) AppUsageRecord.record_hash
      rows (extract_app_usage dm rows table0 ⟨0, 0⟩).1 ⟨0, 0⟩ hall
    have h3 := extractLoop_counts (processAppUsageRow dm) AppUsageRecord.record_hash
      rows table0 ⟨0, 0⟩
    unfold extract_app_usage at h2 h3 ⊢
    rw [h2]
    refine ⟨rfl, by simp, ?_, rfl⟩
    have h4 : (extractLoop (processAppUsageRow dm) AppUsageRecord.record_hash rows table0 ⟨0, 0⟩).2.records_added
        + (extractLoop (processAppUsageRow dm) AppUsageRecord.record_hash rows table0 ⟨0, 0⟩).2.records_skipped
        = (rows.filterMap (processAppUsageRow dm)).length := by simpa using h3
    show 0 + (rows.filterMap (processAppUsageRow dm)).length
        = (extractLoop (processAppUsageRow dm) AppUsageRecord.record_hash rows table0 ⟨0, 0⟩).2.records_added
          + (extractLoop (processAppUsageRow dm) AppUsageRecord.record_hash rows table0 ⟨0, 0⟩).2.records_skipped
    omega
  · have hrun1 : extract_app_usage [] [scenarioRow] [] ⟨0, 0⟩ = ([scenarioRecord], ⟨1, 0⟩) := by
      unfold extract_app_usage
      rw [extractLoop_insert _ _ _ _ _ _ _ scenario_process (by simp), extractLoop_nil]
      simp
    refine ⟨hrun1, ?_, by rw [hrun1]; rfl⟩

    rw [hrun1]
    unfold extract_app_usage
    have hall1 : ∀ rec ∈ [scenarioRow].filterMap (processAppUsageRow []),
        AppUsageRecord.record_hash rec
          ∈ ([scenarioRecord]).map AppUsageRecord.record_hash := by
      intro rec hrec
      simp only [List.filterMap_cons, scenario_process, List.filterMap_nil] at hrec
      rcases List.mem_cons.1 hrec with hEq | hfalse
      · subst hEq; simp
      · simp at hfalse
    rw [extractLoop_all_dup _ _ _ _ _ hall1]
    simp [List.filterMap_cons, scenario_process]


/-! ## Helper lemmas: interval merging -/

/-- sortPairs sorts under the lexicographic order. -/
theorem sortPairs_sorted (l : List (Int × Int)) : List.Sorted pairLe (sortPairs l) :=
  List.sorted_insertionSort pairLe l

/-- sortPairs permutes its input. -/
theorem sortPairs_perm (l : List (Int × Int)) : (sortPairs l).Perm l :=
  List.perm_insertionSort pairLe l

/-- Membership in the union of integer intervals. -/
theorem mem_unionSet {x : ℚ} {l : List (Int × Int)} :
    x ∈ unionSet l ↔ ∃ p ∈ l, x ∈ iSet p := by
  simp [unionSet]

/-- Membership in the union of rational intervals. -/
theorem mem_unionSetQ {x : ℚ} {l : List (ℚ × ℚ)} :
    x ∈ unionSetQ l ↔ ∃ p ∈ l, x ∈ iSetQ p := by
  simp [unionSetQ]

/-- The union only depends on the members. -/
theorem unionSet_congr_perm {l l2 : List (Int × Int)} (h : l.Perm l2) :
    unionSet l = unionSet l2 := by
  ext x
  rw [mem_unionSet, mem_unionSet]
  constructor
  · rintro ⟨p, hp, hx⟩; exact ⟨p, h.mem_iff.1 hp, hx⟩
  · rintro ⟨p, hp, hx⟩; exact ⟨p, h.mem_iff.2 hp, hx⟩

/-- Union of a cons. -/
theorem unionSet_cons (p : Int × Int) (l : List (Int × Int)) :
    unionSet (p :: l) = iSet p ∪ unionSet l := by
  ext x
  simp [unionSet]

/-- Union of the empty list. -/
theorem unionSet_nil : unionSet [] = ∅ := by
  simp [unionSet]

/-- Extending a merged interval absorbs an overlapping next interval. -/
theorem icc_absorb (a b s e : Int) (has : a ≤ s) (hsb : s ≤ b) :
    (iSet (a, max b e) : Set ℚ) = iSet (a, b) ∪ iSet (s, e) := by
  ext x
  simp only [iSet, Set.mem_Icc, Set.mem_union]
  rcases le_total e b with hc | hc
  · rw [max_eq_left hc]
    constructor
    · exact fun h => Or.inl h
    · rintro (h | h)
      · exact h
      · constructor
        · exact le_trans (by exact_mod_cast has) h.1
        · exact le_trans h.2 (by exact_mod_cast hc)
  · rw [max_eq_right hc]
    have hsb2 : (s : ℚ) ≤ (b : ℚ) := by exact_mod_cast hsb
    have has2 : (a : ℚ) ≤ (s : ℚ) := by exact_mod_cast has
    have hbe : (b : ℚ) ≤ (e : ℚ) := by exact_mod_cast hc
    constructor
    · rintro ⟨h1, h2⟩
      rcases le_total x (b : ℚ) with hx | hx
      · exact Or.inl ⟨h1, hx⟩
      · exact Or.inr ⟨le_trans hsb2 hx, h2⟩
    · rintro (⟨h1, h2⟩ | ⟨h1, h2⟩)
      · exact ⟨h1, le_trans h2 hbe⟩
      · exact ⟨le_trans has2 h1, h2⟩

/-- The lexicographic order bounds the starts. -/
theorem pairLe_starts {p q : Int × Int} (h : pairLe p q) : p.1 ≤ q.1 := by
  rcases h with h | ⟨h, _⟩
  · exact le_of_lt h
  · exact le_of_eq h

/-- The merge loop preserves the union of the remaining intervals. -/
theorem mergeGo_union :
    ∀ (rest : List (Int × Int)) (acc : Int × Int),
      List.Sorted pairLe rest → acc.1 ≤ acc.2 →
      (∀ p ∈ rest, p.1 ≤ p.2) → (∀ p ∈ rest, acc.1 ≤ p.1) →
      unionSet (mergeGo acc rest) = iSet acc ∪ unionSet rest := by
  intro rest
  induction rest with
  | nil =>
      intro acc _ _ _ _
      rw [mergeGo, unionSet_cons, unionSet_nil]
  | cons hd tl ih =>
      intro acc hsorted hacc hproper hlb
      obtain ⟨s, e⟩ := hd
      rw [mergeGo]
      have hproper2 : ∀ p ∈ tl, p.1 ≤ p.2 := fun p hp => hproper p (List.mem_cons_of_mem _ hp)
      by_cases hov : s ≤ acc.2
      · rw [if_pos hov]
        have hlb2 : ∀ p ∈ tl, acc.1 ≤ p.1 := fun p hp => hlb p (List.mem_cons_of_mem _ hp)
        have hs : acc.1 ≤ s := hlb (s, e) (List.mem_cons_self _ _)
        rw [ih (acc.1, max acc.2 e) hsorted.of_cons (le_trans hacc (le_max_left _ _))
          hproper2 hlb2]
        rw [unionSet_cons]
        rw [icc_absorb acc.1 acc.2 s e hs hov]
        rw [Set.union_assoc]
      · rw [if_neg hov]
        rw [unionSet_cons]
        have hlb3 : ∀ p ∈ tl, s ≤ p.1 := by
          intro p hp
          exact pairLe_starts (List.rel_of_sorted_cons hsorted p hp)
        have hse : ((s, e) : Int × Int).1 ≤ ((s, e) : Int × Int).2 :=
          hproper (s, e) (List.mem_cons_self _ _)
        rw [ih (s, e) hsorted.of_cons hse hproper2 hlb3, unionSet_cons]

/-- The merge loop never returns an empty list. -/
theorem mergeGo_ne_nil (acc : Int × Int) (rest : List (Int × Int)) :
    mergeGo acc rest ≠ [] := by
  induction rest generalizing acc with
  | nil => simp [mergeGo]
  | cons hd tl ih =>
      obtain ⟨s, e⟩ := hd
      rw [mergeGo]
      by_cases hov : s ≤ acc.2
      · rw [if_pos hov]; exact ih _
      · rw [if_neg hov]; simp

/-- The merge loop emits separated proper intervals whose starts are
bounded below by the start of the accumulator. -/
theorem mergeGo_chain :
    ∀ (rest : List (Int × Int)) (acc : Int × Int),
      List.Sorted pairLe rest → acc.1 < acc.2 →
      (∀ p ∈ rest, p.1 < p.2) → (∀ p ∈ rest, acc.1 ≤ p.1) →
      List.Chain' (fun p q => p.2 < q.1) (mergeGo acc rest)
    ∧ (∀ p ∈ mergeGo acc rest, acc.1 ≤ p.1 ∧ p.1 < p.2) := by
  intro rest
  induction rest with
  | nil =>
      intro acc _ hacc _ _
      constructor
      · simp [mergeGo]
      · intro p hp
        rw [mergeGo, List.mem_singleton] at hp
        subst hp
        exact ⟨le_refl _, hacc⟩
  | cons hd tl ih =>
      intro acc hsorted hacc hproper hlb
      obtain ⟨s, e⟩ := hd
      rw [mergeGo]
      have hproper2 : ∀ p ∈ tl, p.1 < p.2 := fun p hp => hproper p (List.mem_cons_of_mem _ hp)
      by_cases hov : s ≤ acc.2
      · rw [if_pos hov]
        have hlb2 : ∀ p ∈ tl, acc.1 ≤ p.1 := fun p hp => hlb p (List.mem_cons_of_mem _ hp)
        exact ih (acc.1, max acc.2 e) hsorted.of_cons
          (lt_of_lt_of_le hacc (le_max_left _ _)) hproper2 hlb2
      · rw [if_neg hov]
        have hlb3 : ∀ p ∈ tl, s ≤ p.1 := by
          intro p hp
          exact pairLe_starts (List.rel_of_sorted_cons hsorted p hp)
        have hse : s < e := hproper (s, e) (List.mem_cons_self _ _)
        obtain ⟨hchain, hmem⟩ := ih (s, e) hsorted.of_cons hse hproper2 hlb3
        constructor
        · rw [List.chain'_cons']
          constructor
          · intro b hb
            have hbmem : b ∈ mergeGo (s, e) tl := List.mem_of_mem_head? hb
            have := (hmem b hbmem).1
            push_neg at hov
            exact lt_of_lt_of_le hov this
          · exact hchain
        · intro p hp
          rcases List.mem_cons.1 hp with hEq | hrest
          · subst hEq
            exact ⟨le_refl _, hacc⟩
          · obtain ⟨h1, h2⟩ := hmem p hrest
            refine ⟨?_, h2⟩
            have hs : acc.1 ≤ s := hlb (s, e) (List.mem_cons_self _ _)
            exact le_trans hs h1

/-- merge_intervals preserves the union of proper intervals. -/
theorem merge_intervals_union (l : List (Int × Int)) (hp : ∀ p ∈ l, p.1 < p.2) :
    unionSet (merge_intervals l) = unionSet l := by
  rw [merge_intervals]
  cases hs : sortPairs l with
  | nil =>
      have : l = [] := by
        have hperm := sortPairs_perm l
        rw [hs] at hperm
        exact hperm.symm.eq_nil
      rw [this]
  | cons first rest =>
      have hperm := sortPairs_perm l
      rw [hs] at hperm
      have hsorted := sortPairs_sorted l
      rw [hs] at hsorted
      have hmem : ∀ p ∈ first :: rest, p ∈ l := fun p hp2 => hperm.mem_iff.1 hp2
      have hfirst : first.1 < first.2 := hp first (hmem first (List.mem_cons_self _ _))
      have hproper : ∀ p ∈ rest, p.1 ≤ p.2 := fun p hp2 =>
        le_of_lt (hp p (hmem p (List.mem_cons_of_mem _ hp2)))
      have hlb : ∀ p ∈ rest, first.1 ≤ p.1 := fun p hp2 =>
        pairLe_starts (List.rel_of_sorted_cons hsorted p hp2)
      rw [mergeGo_union rest first hsorted.of_cons (le_of_lt hfirst) hproper hlb]
      rw [← unionSet_cons]
      exact unionSet_congr_perm hperm

/-- merge_intervals emits a separated chain of proper intervals. -/
theorem merge_intervals_chain (l : List (Int × Int)) (hp : ∀ p ∈ l, p.1 < p.2) :
    List.Chain' (fun p q => p.2 < q.1) (merge_intervals l)
  ∧ (∀ p ∈ merge_intervals l, p.1 < p.2) := by
  rw [merge_intervals]
  cases hs : sortPairs l with
  | nil => simp
  | cons first rest =>
      have hperm := sortPairs_perm l
      rw [hs] at hperm
      have hsorted := sortPairs_sorted l
      rw [hs] at hsorted
      have hmem : ∀ p ∈ first :: rest, p ∈ l := fun p hp2 => hperm.mem_iff.1 hp2
      have hfirst : first.1 < first.2 := hp first (hmem first (List.mem_cons_self _ _))
      have hproper : ∀ p ∈ rest, p.1 < p.2 := fun p hp2 =>
        hp p (hmem p (List.mem_cons_of_mem _ hp2))
      have hlb : ∀ p ∈ rest, first.1 ≤ p.1 := fun p hp2 =>
        pairLe_starts (List.rel_of_sorted_cons hsorted p hp2)
      obtain ⟨h1, h2⟩ := mergeGo_chain rest first hsorted.of_cons hfirst hproper hlb
      exact ⟨h1, fun p hp2 => (h2 p hp2).2⟩

/-- A separated chain of proper intervals is pairwise separated. -/
theorem chain_gap_pairwise :
    ∀ (l : List (Int × Int)),
      List.Chain' (fun p q => p.2 < q.1) l → (∀ p ∈ l, p.1 < p.2) →
      List.Pairwise (fun p q => p.2 < q.1) l := by
  intro l
  induction l with
  | nil => intro _ _; exact List.Pairwise.nil
  | cons a t ih =>
      intro hchain hproper
      have htail := hchain.tail
      have hpw := ih htail (fun p hp => hproper p (List.mem_cons_of_mem _ hp))
      refine List.Pairwise.cons ?_ hpw
      intro b hb
      cases t with
      | nil => simp at hb
      | cons hd tl =>
          have hahd : a.2 < hd.1 := List.chain'_cons.1 hchain |>.1
          rcases List.mem_cons.1 hb with hEq | hb2
          · subst hEq; exact hahd
          · have hhd : hd.2 < b.1 := (List.pairwise_cons.1 hpw).1 b hb2
            have : hd.1 < hd.2 := hproper hd (List.mem_cons_of_mem _ (List.mem_cons_self _ _))
            omega

/-- No family of closed rational intervals with the same union is
shorter than the merged output: each merged component contains the start
of some member of the family, and one member cannot reach into two
components without covering the gap between them. -/
theorem merge_intervals_minimal (l : List (Int × Int)) (hp : ∀ p ∈ l, p.1 < p.2)
    (l2 : List (ℚ × ℚ))
    (_hdisj : List.Pairwise (fun q r => iSetQ q ∩ iSetQ r = ∅) l2)
    (hun : unionSetQ l2 = unionSet l) :
    (merge_intervals l).length ≤ l2.length := by
  have hchain := merge_intervals_chain l hp
  have hpw := chain_gap_pairwise (merge_intervals l) hchain.1 hchain.2
  have hproper := hchain.2
  have hU : unionSet (merge_intervals l) = unionSet l := merge_intervals_union l hp
  have hun2 : unionSetQ l2 = unionSet (merge_intervals l) := by rw [hun, hU]
  set out := merge_intervals l with hout
  have hgap : ∀ i j : Fin out.length, (i : ℕ) < (j : ℕ) →
      (out.get i).2 < (out.get j).1 := by
    intro i j hij
    exact List.pairwise_iff_get.1 hpw i j hij
  have hgetmem : ∀ i : Fin out.length, out.get i ∈ out := by
    intro i
    have h2 := List.get_mem out i.1 i.2
    simp only [Fin.eta] at h2
    exact h2
  have hproperI : ∀ i : Fin out.length, (out.get i).1 < (out.get i).2 :=
    fun i => hproper _ (hgetmem i)
  have hstarts : ∀ i j : Fin out.length, (i : ℕ) ≤ (j : ℕ) →
      (out.get i).1 ≤ (out.get j).1 := by
    intro i j hij
    rcases Nat.lt_or_ge (i : ℕ) (j : ℕ) with h | h
    · have h1 := hgap i j h
      have h2 := hproperI i
      omega
    · have : (i : ℕ) = (j : ℕ) := le_antisymm hij h
      have : i = j := Fin.ext this
      rw [this]
  have hchoose : ∀ i : Fin out.length, ∃ j : Fin l2.length,
      (((out.get i).1 : ℚ)) ∈ iSetQ (l2.get j) := by
    intro i
    have hx : (((out.get i).1 : ℚ)) ∈ unionSet out := by
      rw [mem_unionSet]
      refine ⟨out.get i, hgetmem i, ?_⟩
      simp only [iSet, Set.mem_Icc]
      constructor
      · exact le_refl _
      · exact_mod_cast le_of_lt (hproperI i)
    rw [← hun2, mem_unionSetQ] at hx
    obtain ⟨p, hpmem, hpx⟩ := hx
    obtain ⟨j, hj⟩ := List.mem_iff_get.1 hpmem
    exact ⟨j, hj ▸ hpx⟩
  choose F hF using hchoose
  have key : ∀ i i2 : Fin out.length, (i : ℕ) < (i2 : ℕ) → F i ≠ F i2 := by
    intro i i2 hlt hFeq
    have hiSlt : (i : ℕ) + 1 < out.length := lt_of_le_of_lt hlt i2.isLt
    set iS : Fin out.length := ⟨(i : ℕ) + 1, hiSlt⟩ with hiS
    have hiSval : (iS : ℕ) = (i : ℕ) + 1 := rfl
    have hgap1 : (out.get i).2 < (out.get iS).1 := hgap i iS (by rw [hiSval]; omega)
    set g : ℚ := (((out.get i).2 : ℚ) + ((out.get iS).1 : ℚ)) / 2 with hg
    have hg1 : ((out.get i).2 : ℚ) < g := by
      rw [hg]
      have : ((out.get i).2 : ℚ) < ((out.get iS).1 : ℚ) := by exact_mod_cast hgap1
      linarith
    have hg2 : g < ((out.get iS).1 : ℚ) := by
      rw [hg]
      have : ((out.get i).2 : ℚ) < ((out.get iS).1 : ℚ) := by exact_mod_cast hgap1
      linarith
    -- g lies inside the competitor interval q := l2.get (F i)
    have hx1 := hF i
    have hx2 := hF i2
    rw [← hFeq] at hx2
    simp only [iSetQ, Set.mem_Icc] at hx1 hx2
    have hq1 : (l2.get (F i)).1 ≤ g := by
      have h1 : ((out.get i).1 : ℚ) ≤ ((out.get i).2 : ℚ) := by
        exact_mod_cast le_of_lt (hproperI i)
      linarith [hx1.1]
    have hq2 : g ≤ (l2.get (F i)).2 := by
      have hSe : (out.get iS).1 ≤ (out.get i2).1 := hstarts iS i2 (by rw [hiSval]; omega)
      have hSe2 : ((out.get iS).1 : ℚ) ≤ ((out.get i2).1 : ℚ) := by exact_mod_cast hSe
      linarith [hx2.1]
    -- hence g is in the union, i.e. in some merged interval: contradiction
    have hgU : g ∈ unionSet out := by
      rw [← hun2, mem_unionSetQ]
      have hqmem : l2.get (F i) ∈ l2 := by
        have h2 := List.get_mem l2 (F i).1 (F i).2
        simp only [Fin.eta] at h2
        exact h2
      exact ⟨l2.get (F i), hqmem, by simp only [iSetQ, Set.mem_Icc]; exact ⟨hq1, hq2⟩⟩
    rw [mem_unionSet] at hgU
    obtain ⟨p, hpmem, hpg⟩ := hgU
    obtain ⟨k, hk⟩ := List.mem_iff_get.1 hpmem
    subst hk
    simp only [iSet, Set.mem_Icc] at hpg
    rcases Nat.lt_or_ge (k : ℕ) ((i : ℕ) + 1) with hki | hki
    · -- k ≤ i: the end of interval k is at most the end of interval i, below g
      have hke : (out.get k).2 ≤ (out.get i).2 := by
        rcases Nat.lt_or_ge (k : ℕ) (i : ℕ) with h | h
        · have h1 := hgap k i h
          have h2 := hproperI i
          omega
        · have : k = i := Fin.ext (by omega)
          rw [this]
      have : g ≤ ((out.get i).2 : ℚ) := le_trans hpg.2 (by exact_mod_cast hke)
      linarith
    · -- k ≥ i + 1 = iS: the start of interval k is at least that of iS, above g
      have hks : (out.get iS).1 ≤ (out.get k).1 := hstarts iS k (by rw [hiSval]; omega)
      have : ((out.get iS).1 : ℚ) ≤ g := le_trans (by exact_mod_cast hks) hpg.1
      linarith
  have hinj : Function.Injective F := by
    intro i i2 hEq
    by_contra hne
    have hne2 : (i : ℕ) ≠ (i2 : ℕ) := fun h => hne (Fin.ext h)
    rcases Nat.lt_or_ge (i : ℕ) (i2 : ℕ) with h | h
    · exact key i i2 h hEq
    · exact key i2 i (by omega) hEq.symm
  have := Fintype.card_le_of_injective F hinj
  simpa using this

/-- C4: over proper raw intervals of one device, merge_intervals
returns non-overlapping intervals (consecutive ends strictly before the
next start) whose union equals the union of the inputs, and no family of
non-overlapping closed intervals with that union is shorter; on the
concrete input [(10,20),(15,25),(30,40)] it returns [(10,25),(30,40)]
with total duration 25. -/
theorem C4_merge_intervals_correct (l : List (Int × Int))
    (hp : ∀ p ∈ l, p.1 < p.2) :
    unionSet (merge_intervals l) = unionSet l
  ∧ List.Chain' (fun p q => p.2 < q.1) (merge_intervals l)
  ∧ (∀ p ∈ merge_intervals l, p.1 < p.2)
  ∧ (∀ l2 : List (ℚ × ℚ),
        List.Pairwise (fun q r => iSetQ q ∩ iSetQ r = ∅) l2 →
        unionSetQ l2 = unionSet l →
        (merge_intervals l).length ≤ l2.length)
  ∧ merge_intervals [(10, 20), (15, 25), (30, 40)] = [(10, 25), (30, 40)]
  ∧ ((merge_intervals [(10, 20), (15, 25), (30, 40)]).map (fun p => p.2 - p.1)).sum = 25 := by
  refine ⟨merge_intervals_union l hp, (merge_intervals_chain l hp).1,
    (merge_intervals_chain l hp).2,
    fun l2 hdisj hun => merge_intervals_minimal l hp l2 hdisj hun,
    by decide, by decide⟩

/-- C4 witness at the concrete example input. -/
theorem C4_merge_intervals_correct_witness :
    unionSet (merge_intervals [(10, 20), (15, 25), (30, 40)])
      = unionSet [(10, 20), (15, 25), (30, 40)]
  ∧ merge_intervals [(10, 20), (15, 25), (30, 40)] = [(10, 25), (30, 40)] := by
  have h := C4_merge_intervals_correct [(10, 20), (15, 25), (30, 40)] (by decide)
  exact ⟨h.1, h.2.2.2.2.1⟩


/-! ## Helper lemmas: day attribution -/

/-- A timestamp lies in the window of its day. -/
theorem dayOf_bounds (t : Int) : dayOf t * 86400 ≤ t ∧ t < (dayOf t + 1) * 86400 := by
  rw [dayOf, Int.fdiv_eq_ediv _ (by norm_num)]
  have h1 := Int.emod_nonneg t (by norm_num : (86400 : Int) ≠ 0)
  have h2 := Int.emod_lt_of_pos t (by norm_num : (0 : Int) < 86400)
  have h3 := Int.ediv_add_emod t 86400
  omega

/-- The day index is monotone. -/
theorem dayOf_mono {s t : Int} (h : s ≤ t) : dayOf s ≤ dayOf t := by
  rw [dayOf, dayOf, Int.fdiv_eq_ediv _ (by norm_num), Int.fdiv_eq_ediv _ (by norm_num)]
  exact Int.ediv_le_ediv (by norm_num) h

/-- The day walk stops once the current day passes the end day. -/
theorem splitGo_ge (d cur startDay endDay endTs : Int) (fuel : ℕ)
    (h : endDay < d) : splitGo d cur startDay endDay endTs fuel = [] := by
  cases fuel with
  | zero => rfl
  | succ n => rw [splitGo, if_pos h]

/-- Characterization of the day walk: with enough fuel and the cursor at
the clamped position of the current day, every emitted chunk lies between
the current day and the end day, carries exactly the clamped portion of
the interval inside its day window, and is flagged as a connection
exactly on the starting day; every day with a positive portion is
emitted; and the emitted days strictly increase. -/
theorem splitGo_spec :
    ∀ (fuel : ℕ) (d cur s e : Int),
      dayOf s < dayOf e →
      dayOf s ≤ d →
      cur = max s (d * 86400) →
      (dayOf e - d).toNat + 1 ≤ fuel →
      (∀ c ∈ splitGo d cur (dayOf s) (dayOf e) e fuel,
          d ≤ c.day ∧ c.day ≤ dayOf e ∧ c.secs = portion s e c.day
            ∧ (c.conn = true ↔ c.day = dayOf s))
    ∧ (∀ D : Int, d ≤ D → D ≤ dayOf e → 0 < portion s e D →
          ∃ c ∈ splitGo d cur (dayOf s) (dayOf e) e fuel,
            c.day = D ∧ c.secs = portion s e D)
    ∧ List.Pairwise (fun c1 c2 => c1.day < c2.day)
        (splitGo d cur (dayOf s) (dayOf e) e fuel) := by
  intro fuel
  induction fuel with
  | zero =>
      intro d cur s e _ _ _ hfuel
      omega
  | succ n ih =>
      intro d cur s e hcross hsd hcur hfuel
      have hsb := dayOf_bounds s
      have heb := dayOf_bounds e
      by_cases hdgt : dayOf e < d
      · rw [splitGo, if_pos hdgt]
        refine ⟨by simp, ?_, by simp⟩
        intro D hdD hDe _
        omega
      · push_neg at hdgt
        rw [splitGo, if_neg (not_lt.mpr hdgt)]
        simp only []
        have hsd1 : s < (dayOf s + 1) * 86400 := hsb.2
        have hsmax : s ≤ (d + 1) * 86400 := by nlinarith [hsd1, hsd]
        by_cases hde : d = dayOf e
        · rw [if_pos hde]
          have hrest : splitGo (d + 1) ((d + 1) * 86400) (dayOf s) (dayOf e) e n = [] :=
            splitGo_ge _ _ _ _ _ _ (by omega)
          rw [hrest]
          have hsed : s ≤ dayOf e * 86400 := by nlinarith [hsd1, hcross]
          have hportion : portion s e d = e - dayOf e * 86400 := by
            rw [portion]
            have h1 : min e ((d + 1) * 86400) = e := by
              refine min_eq_left ?_
              have := heb.2
              nlinarith [hde]
            have h2 : max s (d * 86400) = d * 86400 := by
              refine max_eq_right ?_
              omega
            omega
          by_cases hpos : 0 < e - dayOf e * 86400
          · rw [if_pos hpos]
            refine ⟨?_, ?_, ?_⟩
            · intro c hc
              rw [List.mem_singleton] at hc
              subst hc
              refine ⟨le_refl _, le_of_eq hde, by rw [hportion], ?_⟩
              simp only [beq_iff_eq]
            · intro D hdD hDe hDpos
              have hDeq : D = d := by omega
              subst hDeq
              exact ⟨⟨D, e - dayOf e * 86400, D == dayOf s⟩, List.mem_singleton_self _,
                rfl, by rw [hportion]⟩
            · simp
          · rw [if_neg hpos]
            refine ⟨by simp, ?_, by simp⟩
            intro D hdD hDe hDpos
            have hDeq : D = d := by omega
            subst hDeq
            rw [hportion] at hDpos
            exact absurd hDpos hpos
        · have hdlt : d < dayOf e := lt_of_le_of_ne hdgt hde
          rw [if_neg hde]
          have hcurlt : cur < (d + 1) * 86400 := by
            rw [hcur]
            have h1 : d * 86400 < (d + 1) * 86400 := by nlinarith
            have h2 : s < (d + 1) * 86400 := by nlinarith [hsd1, hsd]
            omega
          have hpos : 0 < (d + 1) * 86400 - cur := by omega
          rw [if_pos hpos]
          have hportion : portion s e d = (d + 1) * 86400 - cur := by
            rw [portion, hcur]
            have h1 : min e ((d + 1) * 86400) = (d + 1) * 86400 := by
              refine min_eq_right ?_
              nlinarith [heb.1, hdlt]
            omega
          obtain ⟨ih1, ih2, ih3⟩ := ih (d + 1) ((d + 1) * 86400) s e hcross (by omega)
            (by rw [max_eq_right hsmax]) (by omega)
          refine ⟨?_, ?_, ?_⟩
          · intro c hc
            rcases List.mem_cons.1 hc with hEq | hrest
            · subst hEq
              refine ⟨le_refl _, le_of_lt hdlt, by rw [hportion], ?_⟩
              simp only [beq_iff_eq]
            · obtain ⟨h1, h2, h3, h4⟩ := ih1 c hrest
              exact ⟨by omega, h2, h3, h4⟩
          · intro D hdD hDe hDpos
            rcases eq_or_lt_of_le hdD with hDeq | hDlt
            · refine ⟨⟨d, (d + 1) * 86400 - cur, d == dayOf s⟩, List.mem_cons_self _ _, ?_, ?_⟩
              · exact hDeq

              · rw [← hDeq, hportion]
            · obtain ⟨c, hc, hcd, hcs⟩ := ih2 D (by omega) hDe hDpos
              exact ⟨c, List.mem_cons_of_mem _ hc, hcd, hcs⟩
          · refine List.Pairwise.cons ?_ ih3
            intro c hc
            have := (ih1 c hc).1
            show d < c.day
            omega

/-- C6: for a merged interval crossing a local midnight, the day split
attributes to each calendar day between the start day and the end day
exactly the portion of the interval inside the window of that day (days
with an empty portion get nothing), credits the single connection increment
only to the starting day, and emits each day at most once; the interval
from 23:00 on day 0 to 01:00 on day 1 yields one hour on each day with
the connection counted on day 0 only. -/
theorem C6_day_split_correct (s e : Int) (hse : s < e) (hcross : dayOf s ≠ dayOf e) :
    (∀ c ∈ daySplit s e,
        dayOf s ≤ c.day ∧ c.day ≤ dayOf e ∧ c.secs = portion s e c.day
          ∧ (c.conn = true ↔ c.day = dayOf s))
  ∧ (∀ D : Int, dayOf s ≤ D → D ≤ dayOf e → 0 < portion s e D →
        ∃ c ∈ daySplit s e, c.day = D ∧ c.secs = portion s e D)
  ∧ List.Pairwise (fun c1 c2 => c1.day < c2.day) (daySplit s e)
  ∧ (∃ c ∈ daySplit s e, c.day = dayOf s ∧ c.conn = true)
  ∧ daySplit 82800 90000
      = [⟨0, 3600, true⟩, ⟨1, 3600, false⟩] := by
  have hmono : dayOf s ≤ dayOf e := dayOf_mono (le_of_lt hse)
  have hlt : dayOf s < dayOf e := lt_of_le_of_ne hmono hcross
  have hsb := dayOf_bounds s
  have heb := dayOf_bounds e
  have hsplit : daySplit s e
      = splitGo (dayOf s) s (dayOf s) (dayOf e) e ((dayOf e - dayOf s).toNat + 1) := by
    rw [daySplit, if_neg hcross]
  obtain ⟨hmem, hexist, hpw⟩ := splitGo_spec ((dayOf e - dayOf s).toNat + 1)
    (dayOf s) s s e hlt (le_refl _) (by rw [max_eq_left hsb.1]) (by omega)
  have hport0 : 0 < portion s e (dayOf s) := by
    rw [portion]
    have h1 : min e ((dayOf s + 1) * 86400) = (dayOf s + 1) * 86400 := by
      refine min_eq_right ?_
      nlinarith [heb.1, hlt]
    have h2 : max s (dayOf s * 86400) = s := max_eq_left hsb.1
    omega
  refine ⟨?_, ?_, ?_, ?_, by decide⟩
  · intro c hc
    rw [hsplit] at hc
    exact hmem c hc
  · intro D h1 h2 h3
    rw [hsplit]
    exact hexist D h1 h2 h3
  · rw [hsplit]
    exact hpw
  · obtain ⟨c0, hc0, hc0day, hc0secs⟩ := hexist (dayOf s) le_rfl (le_of_lt hlt) hport0
    refine ⟨c0, by rw [hsplit]; exact hc0, hc0day, ?_⟩
    exact ((hmem c0 hc0).2.2.2).2 hc0day

/-- C6 witness: the concrete midnight-crossing example. -/
theorem C6_day_split_correct_witness :
    ((82800 : Int) < 90000 ∧ dayOf 82800 ≠ dayOf 90000)
  ∧ daySplit 82800 90000 = [⟨0, 3600, true⟩, ⟨1, 3600, false⟩] := by
  refine ⟨⟨by norm_num, by decide⟩, ?_⟩
  exact (C6_day_split_correct 82800 90000 (by norm_num) (by decide)).2.2.2.2


/-! ## Helper lemmas: aggregation sums -/

/-- The day walk telescopes: its chunk seconds sum to end minus cursor. -/
theorem splitGo_sum :
    ∀ (fuel : ℕ) (d cur s e : Int),
      dayOf s < dayOf e →
      dayOf s ≤ d → d ≤ dayOf e →
      cur = max s (d * 86400) →
      (dayOf e - d).toNat + 1 ≤ fuel →
      ((splitGo d cur (dayOf s) (dayOf e) e fuel).map DayChunk.secs).sum = e - cur := by
  intro fuel
  induction fuel with
  | zero =>
      intro d cur s e _ _ _ _ hfuel
      omega
  | succ n ih =>
      intro d cur s e hcross hsd hde hcur hfuel
      have hsb := dayOf_bounds s
      have heb := dayOf_bounds e
      rw [splitGo, if_neg (not_lt.mpr hde)]
      simp only []
      have hsd1 : s < (dayOf s + 1) * 86400 := hsb.2
      by_cases hdeq : d = dayOf e
      · rw [if_pos hdeq]
        have hrest : splitGo (d + 1) ((d + 1) * 86400) (dayOf s) (dayOf e) e n = [] :=
          splitGo_ge _ _ _ _ _ _ (by omega)
        have hcur2 : cur = dayOf e * 86400 := by
          rw [hcur]
          have : s ≤ d * 86400 := by nlinarith [hsd1, hcross, hdeq]
          rw [hdeq] at this ⊢
          exact max_eq_right this
        by_cases hpos : 0 < e - dayOf e * 86400
        · rw [if_pos hpos, hrest]
          simp [hcur2]
        · rw [if_neg hpos, hrest]
          simp only [List.map_nil, List.sum_nil]
          omega
      · have hdlt : d < dayOf e := lt_of_le_of_ne hde hdeq
        rw [if_neg hdeq]
        have hsmax : s ≤ (d + 1) * 86400 := by nlinarith [hsd1, hsd]
        have hcurlt : cur < (d + 1) * 86400 := by
          rw [hcur]
          have h1 : d * 86400 < (d + 1) * 86400 := by nlinarith
          have h2 : s < (d + 1) * 86400 := by nlinarith [hsd1, hsd]
          omega
        rw [if_pos (by omega : (0 : Int) < (d + 1) * 86400 - cur)]
        have hrec := ih (d + 1) ((d + 1) * 86400) s e hcross (by omega) (by omega)
          (by rw [max_eq_right hsmax]) (by omega)
        rw [List.map_cons, List.sum_cons, hrec]
        show ((d + 1) * 86400 - cur) + (e - (d + 1) * 86400) = e - cur
        omega

/-- The day chunks of one proper interval sum to its duration. -/
theorem daySplit_sum (s e : Int) (hse : s < e) :
    ((daySplit s e).map DayChunk.secs).sum = e - s := by
  by_cases hcross : dayOf s = dayOf e
  · rw [daySplit, if_pos hcross]
    simp
  · rw [daySplit, if_neg hcross]
    have hmono : dayOf s ≤ dayOf e := dayOf_mono (le_of_lt hse)
    have hlt : dayOf s < dayOf e := lt_of_le_of_ne hmono hcross
    have hsb := dayOf_bounds s
    exact splitGo_sum ((dayOf e - dayOf s).toNat + 1) (dayOf s) s s e hlt (le_refl _)
      (le_of_lt hlt) (by rw [max_eq_left hsb.1]) (by omega)

/-- Pointwise sum of two maps. -/
theorem list_sum_map_add {α : Type} (l : List α) (f g : α → Int) :
    (l.map (fun x => f x + g x)).sum = (l.map f).sum + (l.map g).sum := by
  induction l with
  | nil => simp
  | cons a t ih => simp [ih]; ring

/-- A delta sum over keys not containing the key is zero. -/
theorem sum_delta_zero (ks : List Int) (k0 : Int) (v : Int) (hk : k0 ∉ ks) :
    (ks.map (fun k => if k0 == k then v else 0)).sum = 0 := by
  induction ks with
  | nil => simp
  | cons a t ih =>
      rw [List.map_cons, List.sum_cons]
      have ha : k0 ≠ a := fun h => hk (h ▸ List.mem_cons_self _ _)
      rw [if_neg (by simpa using ha)]
      rw [ih (fun h => hk (List.mem_cons_of_mem _ h))]
      omega

/-- A delta sum over deduplicated keys containing the key once. -/
theorem sum_delta (ks : List Int) (hnd : ks.Nodup) (k0 : Int) (hk : k0 ∈ ks) (v : Int) :
    (ks.map (fun k => if k0 == k then v else 0)).sum = v := by
  induction ks with
  | nil => simp at hk
  | cons a t ih =>
      rw [List.map_cons, List.sum_cons]
      rcases List.mem_cons.1 hk with hEq | hmem
      · subst hEq
        rw [if_pos (by simp)]
        have hnot : k0 ∉ t := (List.nodup_cons.1 hnd).1
        rw [sum_delta_zero t k0 v hnot]
        omega
      · have ha : k0 ≠ a := by
          intro h
          subst h
          exact (List.nodup_cons.1 hnd).1 hmem
        rw [if_neg (by simpa using ha)]
        rw [ih (List.nodup_cons.1 hnd).2 hmem]
        omega

/-- Grouping chunk seconds by day and summing the groups gives the
total. -/
theorem grouping_sum (chunks : List DayChunk) (ks : List Int) (hnd : ks.Nodup)
    (hcov : ∀ c ∈ chunks, c.day ∈ ks) :
    (ks.map (fun k => ((chunks.filter (fun c => c.day == k)).map DayChunk.secs).sum)).sum
      = (chunks.map DayChunk.secs).sum := by
  induction chunks with
  | nil => simp
  | cons c t ih =>
      have hsplit : ∀ k : Int,
          ((List.filter (fun c2 => c2.day == k) (c :: t)).map DayChunk.secs).sum
            = (if c.day == k then c.secs else 0)
              + ((t.filter (fun c2 => c2.day == k)).map DayChunk.secs).sum := by
        intro k
        by_cases hck : (c.day == k) = true
        · have hstep : List.filter (fun c2 => c2.day == k) (c :: t)
              = c :: List.filter (fun c2 => c2.day == k) t := by
            simp [List.filter_cons, hck]
          rw [hstep, List.map_cons, List.sum_cons, if_pos hck]
        · have hstep : List.filter (fun c2 => c2.day == k) (c :: t)
              = List.filter (fun c2 => c2.day == k) t := by
            simp [List.filter_cons, hck]
          rw [hstep, if_neg hck]
          omega
      have hmap : ks.map (fun k => ((List.filter (fun c2 => c2.day == k) (c :: t)).map DayChunk.secs).sum)
          = ks.map (fun k => (if c.day == k then c.secs else 0)
              + ((t.filter (fun c2 => c2.day == k)).map DayChunk.secs).sum) := by
        exact List.map_congr_left (fun k _ => hsplit k)
      rw [hmap, list_sum_map_add]
      rw [sum_delta ks hnd c.day (hcov c (List.mem_cons_self _ _)) c.secs]
      rw [ih (fun c2 hc2 => hcov c2 (List.mem_cons_of_mem _ hc2))]
      rw [List.map_cons, List.sum_cons]

/-- Sum over a flatMap as a sum of per-element sums. -/
theorem sum_map_flatMap {α β : Type} (l : List α) (f : α → List β) (g : β → Int) :
    (((l.flatMap f).map g).sum) = (l.map (fun x => ((f x).map g).sum)).sum := by
  induction l with
  | nil => simp
  | cons a t ih => simp [List.flatMap_cons, ih]

/-- The intervals kept per device are proper (the query loop discards
end before or at start). -/
theorem deviceIntervals_proper (rows : List (String × Int × Int)) (d : String) :
    ∀ p ∈ deviceIntervals rows d, p.1 < p.2 := by
  intro p hp
  rw [deviceIntervals, List.mem_filterMap] at hp
  obtain ⟨r, _, hr⟩ := hp
  by_cases hlt : r.2.1 < r.2.2
  · rw [if_pos hlt] at hr
    obtain rfl := Option.some.inj hr
    exact hlt
  · rw [if_neg hlt] at hr
    exact absurd hr (by simp)

/-- All chunk seconds of a device sum to the durations of its merged
intervals. -/
theorem deviceChunks_sum (rows : List (String × Int × Int)) (d : String) :
    ((deviceChunks rows d).map DayChunk.secs).sum
      = ((merge_intervals (deviceIntervals rows d)).map (fun p => p.2 - p.1)).sum := by
  rw [deviceChunks, sum_map_flatMap]
  have hcong : (merge_intervals (deviceIntervals rows d)).map
        (fun p => ((daySplit p.1 p.2).map DayChunk.secs).sum)
      = (merge_intervals (deviceIntervals rows d)).map (fun p => p.2 - p.1) := by
    apply List.map_congr_left
    intro p hp
    exact daySplit_sum p.1 p.2
      ((merge_intervals_chain (deviceIntervals rows d) (deviceIntervals_proper rows d)).2 p hp)
  rw [hcong]

/-- The clamped portions of a separated chain inside a window sum to at
most the window length. -/
theorem chain_clamp_sum :
    ∀ (l : List (Int × Int)) (lo hi : Int), lo ≤ hi →
      List.Pairwise (fun p q => p.2 < q.1) l →
      ((l.map (fun p => max 0 (min p.2 hi - max p.1 lo))).sum) ≤ hi - lo := by
  intro l
  induction l with
  | nil => intro lo hi hle _; simp; omega
  | cons p t ih =>
      intro lo hi hle hpw
      rw [List.map_cons, List.sum_cons]
      have hhead : ∀ q ∈ t, p.2 < q.1 := (List.pairwise_cons.1 hpw).1
      have hcong : t.map (fun q => max 0 (min q.2 hi - max q.1 lo))
          = t.map (fun q => max 0 (min q.2 hi - max q.1 (max lo (min p.2 hi)))) := by
        apply List.map_congr_left
        intro q hq
        have h1 := hhead q hq
        omega
      rw [hcong]
      have htail := ih (max lo (min p.2 hi)) hi (by omega) (List.pairwise_cons.1 hpw).2
      have hhd : max 0 (min p.2 hi - max p.1 lo) ≤ max lo (min p.2 hi) - lo := by omega
      omega

/-- The chunk seconds an interval contributes to one fixed day are at
most its clamped portion inside the window of that day. -/
theorem daySplit_filter_le (s e : Int) (hse : s < e) (day : Int) :
    (((daySplit s e).filter (fun c => c.day == day)).map DayChunk.secs).sum
      ≤ max 0 (min e ((day + 1) * 86400) - max s (day * 86400)) := by
  have hsb := dayOf_bounds s
  have heb := dayOf_bounds e
  by_cases hcross : dayOf s = dayOf e
  · rw [daySplit, if_pos hcross]
    by_cases hd : (dayOf s == day) = true
    · have hday : dayOf s = day := by simpa using hd
      have hstep : List.filter (fun c => c.day == day)
            ([⟨dayOf s, e - s, true⟩] : List DayChunk)
          = ([⟨dayOf s, e - s, true⟩] : List DayChunk) := by
        simp [List.filter_cons, hd]
      rw [hstep]
      show e - s + 0 ≤ max 0 (min e ((day + 1) * 86400) - max s (day * 86400))
      rw [← hday]
      have h1 : e < (dayOf s + 1) * 86400 := by rw [hcross]; exact heb.2
      have h2 : dayOf s * 86400 ≤ s := hsb.1
      omega
    · have hstep : List.filter (fun c => c.day == day)
            ([⟨dayOf s, e - s, true⟩] : List DayChunk) = [] := by
        simp [List.filter_cons, hd]
      rw [hstep]
      simp only [List.map_nil, List.sum_nil]
      omega
  · have hmono : dayOf s ≤ dayOf e := dayOf_mono (le_of_lt hse)
    have hlt : dayOf s < dayOf e := lt_of_le_of_ne hmono hcross
    have hsplit : daySplit s e
        = splitGo (dayOf s) s (dayOf s) (dayOf e) e ((dayOf e - dayOf s).toNat + 1) := by
      rw [daySplit, if_neg hcross]
    obtain ⟨hmem, _, hpw⟩ := splitGo_spec ((dayOf e - dayOf s).toNat + 1)
      (dayOf s) s s e hlt (le_refl _) (by rw [max_eq_left hsb.1]) (by omega)
    rw [hsplit]
    set L := splitGo (dayOf s) s (dayOf s) (dayOf e) e ((dayOf e - dayOf s).toNat + 1) with hL
    have hpwF : List.Pairwise (fun c1 c2 => c1.day < c2.day)
        (L.filter (fun c => c.day == day)) := List.Pairwise.filter _ hpw
    have hmemF : ∀ c ∈ L.filter (fun c => c.day == day),
        c.secs = portion s e day := by
      intro c hc
      obtain ⟨hcL, hcd⟩ := List.mem_filter.1 hc
      have hday : c.day = day := by simpa using hcd
      have := (hmem c hcL).2.2.1
      rw [← hday]
      exact this
    rcases hFcase : L.filter (fun c => c.day == day) with _ | ⟨c1, t1⟩
    · rw [hFcase]
      simp only [List.map_nil, List.sum_nil]
      omega
    · rcases t1 with _ | ⟨c2, t2⟩
      · rw [hFcase, List.map_cons, List.map_nil, List.sum_cons, List.sum_nil]
        have h1 : c1.secs = portion s e day := hmemF c1 (by rw [hFcase]; exact List.mem_cons_self _ _)
        rw [h1, portion]
        omega
      · exfalso
        have hc1 : c1 ∈ L.filter (fun c => c.day == day) := by
          rw [hFcase]; exact List.mem_cons_self _ _
        have hc2 : c2 ∈ L.filter (fun c => c.day == day) := by
          rw [hFcase]; exact List.mem_cons_of_mem _ (List.mem_cons_self _ _)
        have hd1 : c1.day = day := by simpa using (List.mem_filter.1 hc1).2
        have hd2 : c2.day = day := by simpa using (List.mem_filter.1 hc2).2
        have hlt12 : c1.day < c2.day := by
          rw [hFcase] at hpwF
          exact (List.pairwise_cons.1 hpwF).1 c2 (List.mem_cons_self _ _)
        omega

/-- Filtering commutes with flatMap. -/
theorem filter_flatMap {α β : Type} (l : List α) (f : α → List β) (p : β → Bool) :
    (l.flatMap f).filter p = l.flatMap (fun x => (f x).filter p) := by
  induction l with
  | nil => simp
  | cons a t ih => simp [List.flatMap_cons, List.filter_append, ih]

/-- One device never accumulates more than 86400 seconds on one day. -/
theorem deviceDayTotal_le (rows : List (String × Int × Int)) (d : String) (day : Int) :
    deviceDayTotal rows d day ≤ 86400 := by
  rw [deviceDayTotal, deviceChunks, filter_flatMap, sum_map_flatMap]
  have hproper := (merge_intervals_chain (deviceIntervals rows d)
    (deviceIntervals_proper rows d)).2
  have hpw := chain_gap_pairwise (merge_intervals (deviceIntervals rows d))
    (merge_intervals_chain (deviceIntervals rows d) (deviceIntervals_proper rows d)).1
    hproper
  have hbound := List.sum_le_sum (fun p hp =>
    daySplit_filter_le p.1 p.2 (hproper p hp) day)
  have hchain := chain_clamp_sum (merge_intervals (deviceIntervals rows d))
    (day * 86400) ((day + 1) * 86400) (by omega) hpw
  calc ((merge_intervals (deviceIntervals rows d)).map
          (fun p => (((daySplit p.1 p.2).filter (fun c => c.day == day)).map DayChunk.secs).sum)).sum
      ≤ ((merge_intervals (deviceIntervals rows d)).map
          (fun p => max 0 (min p.2 ((day + 1) * 86400) - max p.1 (day * 86400)))).sum := hbound
    _ ≤ (day + 1) * 86400 - day * 86400 := hchain
    _ = 86400 := by ring

/-- A device with a positive total on a day is active on that day. -/
theorem active_of_total_pos (rows : List (String × Int × Int)) (d : String) (day : Int)
    (hpos : 0 < deviceDayTotal rows d day) : d ∈ activeDevices rows day := by
  rcases hFcase : (deviceChunks rows d).filter (fun c => c.day == day) with _ | ⟨c, t⟩
  · rw [deviceDayTotal, hFcase] at hpos
    simp at hpos
  · have hc : c ∈ (deviceChunks rows d).filter (fun c => c.day == day) := by
      rw [hFcase]; exact List.mem_cons_self _ _
    obtain ⟨hcL, hcd⟩ := List.mem_filter.1 hc
    -- the device occurs in the raw rows
    have hrow : ∃ r ∈ rows, r.1 = d := by
      rw [deviceChunks] at hcL
      rw [List.mem_flatMap] at hcL
      obtain ⟨p, hpmem, _⟩ := hcL
      have hne : deviceIntervals rows d ≠ [] := by
        intro hnil
        rw [merge_intervals, hnil] at hpmem
        have : sortPairs [] = [] := rfl
        rw [this] at hpmem
        simp at hpmem
      obtain ⟨q, hq⟩ := List.exists_mem_of_ne_nil _ hne
      rw [deviceIntervals, List.mem_filterMap] at hq
      obtain ⟨r, hr, _⟩ := hq
      obtain ⟨hrmem, hrd⟩ := List.mem_filter.1 hr
      exact ⟨r, hrmem, by simpa using hrd⟩
    obtain ⟨r, hrmem, hrd⟩ := hrow
    rw [activeDevices, List.mem_filter]
    constructor
    · rw [devicesOf, List.mem_dedup]
      rw [List.mem_map]
      exact ⟨r, hrmem, hrd⟩
    · rw [List.any_eq_true]
      exact ⟨c, hcL, hcd⟩

/-- C5: for every device, the sum of total_seconds over all its emitted
(day, device) keys equals the sum of durations of its merged
non-overlapping intervals, and no emitted per-day total exceeds 86400
seconds times the number of devices active that day. -/
theorem C5_bluetooth_totals (rows : List (String × Int × Int)) (d : String) :
    ((emittedDaysFor rows d).map (fun day => deviceDayTotal rows d day)).sum
      = ((merge_intervals (deviceIntervals rows d)).map (fun p => p.2 - p.1)).sum
  ∧ (∀ day : Int,
        deviceDayTotal rows d day ≤ 86400 * ((activeDevices rows day).length : Int)) := by
  constructor
  · have hgroup := grouping_sum (deviceChunks rows d)
      ((deviceChunks rows d).map DayChunk.day).dedup (List.nodup_dedup _)
      (fun c hc => List.mem_dedup.2 (List.mem_map.2 ⟨c, hc, rfl⟩))
    rw [emittedDaysFor]
    calc (((deviceChunks rows d).map DayChunk.day).dedup.map
            (fun day => deviceDayTotal rows d day)).sum
        = ((deviceChunks rows d).map DayChunk.secs).sum := hgroup
      _ = ((merge_intervals (deviceIntervals rows d)).map (fun p => p.2 - p.1)).sum :=
          deviceChunks_sum rows d
  · intro day
    by_cases hpos : 0 < deviceDayTotal rows d day
    · have hmem := active_of_total_pos rows d day hpos
      have hlen : 1 ≤ (activeDevices rows day).length := List.length_pos_of_mem hmem
      have hle := deviceDayTotal_le rows d day
      have hcast : (1 : Int) ≤ ((activeDevices rows day).length : Int) := by exact_mod_cast hlen
      nlinarith
    · push_neg at hpos
      have : (0 : Int) ≤ 86400 * ((activeDevices rows day).length : Int) := by positivity
      omega
